import Mathlib

/-!
Verification of the gallica-mcp query parser and client against their
natural-language specification.  The Python sources
(`gallica_mcp/query_parser.py` and `gallica_mcp/client.py`) are shallowly
embedded as executable Lean functions; claims about the program are stated
and settled as theorems over those definitions.

Strings are modelled as Lean `String`/`List Char`; bounded loops of the
Python code are modelled with an explicit fuel argument that is always
instantiated large enough (proved where a claim depends on it), so every
definition computes by kernel reduction.
-/

/-! ## Python string helpers -/

/-- Model of Python `str.isspace` / regex `\s` on a single character:
ASCII whitespace plus the Unicode whitespace characters recognised by
Python. -/
def pyIsSpace (c : Char) : Bool :=
  c == ' ' || c == '\t' || c == '\n' || c == '\r' || c == '\x0b' || c == '\x0c' ||
  ('\x1c' ≤ c && c ≤ '\x1f') || c == '\x85' || c == '\xa0' || c == ' ' ||
  (' ' ≤ c && c ≤ ' ') || c == ' ' || c == ' ' ||
  c == ' ' || c == ' ' || c == '　'

/-- Drop leading whitespace (the left half of Python `str.strip()`). -/
def trimLeftWS (l : List Char) : List Char := l.dropWhile pyIsSpace

/-- Drop trailing whitespace (the right half of Python `str.strip()`). -/
def trimRightWS (l : List Char) : List Char := (l.reverse.dropWhile pyIsSpace).reverse

/-- Python `str.strip()` on character lists. -/
def pyStripL (l : List Char) : List Char := trimRightWS (trimLeftWS l)

/-- Python `str.strip()` on strings. -/
def pyStripS (s : String) : String := String.mk (pyStripL s.data)

/-- Python `sep.join(parts)`. -/
def pyJoin (sep : String) : List String → String
  | [] => ""
  | [x] => x
  | x :: y :: rest => x ++ sep ++ pyJoin sep (y :: rest)

/-! ## query_parser.py — tokens and errors -/

/-- Token kinds produced by `_tokenize` (the `type` field of the Python
`Token`, with the literal `value` carried for `WORD`/`PHRASE`). -/
inductive Tok where
  | word (value : String)
  | phrase (value : String)
  | and
  | or
  | not
  | lparen
  | rparen
deriving DecidableEq, Repr

/-- The `value` field of the Python `Token` for each token, as used in
`QueryParseError` messages. -/
def tokValue : Tok → String
  | .word v => v
  | .phrase v => v
  | .and => "AND"
  | .or => "OR"
  | .not => "NOT"
  | .lparen => "("
  | .rparen => ")"

/-- The distinct `QueryParseError` situations raised by `_tokenize` and
`_BooleanQueryParser`, one constructor per `raise` site:
unterminated quoted phrase, empty token stream, `Unexpected token '...'`
(trailing tokens after a complete expression, or a primary position holding
an operator/closing token), exhausted stream where a primary is expected,
and a missing closing parenthesis.  `outOfFuel` is an artefact of the fuel
encoding and is proved unreachable. -/
inductive PErr where
  | unterminatedPhrase
  | emptyQuery
  | unexpectedToken (value : String)
  | unexpectedEnd
  | missingClosingParen
  | outOfFuel
deriving DecidableEq, Repr

/-! ## query_parser.py — tokenizer (`_tokenize`) -/

/-- Characters that may appear in a bare word: not whitespace and not one
of `(`, `)`, `"`, `!` (the loop condition of the word branch of
`_tokenize`). -/
def wordChar (c : Char) : Bool :=
  !pyIsSpace c && c != '(' && c != ')' && c != '"' && c != '!'

/-- The quoted-phrase scanner of `_tokenize`: after an opening `"`, consume
characters until an unescaped closing `"`, carrying the `escaped` flag of
the Python loop (a backslash sets it, the next character is then taken
literally); `none` models the `Unterminated quoted phrase` error, raised
when the input ends without an unescaped closing quote. -/
def scanPhrase (escaped : Bool) : List Char → Option (List Char × List Char)
  | [] => none
  | c :: rest =>
    if escaped then
      match scanPhrase false rest with
      | some (buf, r) => some (c :: buf, r)
      | none => none
    else if c = '\\' then scanPhrase true rest
    else if c = '"' then some ([], rest)
    else
      match scanPhrase false rest with
      | some (buf, r) => some (c :: buf, r)
      | none => none

/-- The word scanner of `_tokenize`: take the longest run of word
characters, returning it together with the rest of the input. -/
def takeWord : List Char → List Char × List Char
  | [] => ([], [])
  | c :: rest =>
    if wordChar c then
      match takeWord rest with
      | (w, r) => (c :: w, r)
    else ([], c :: rest)

/-- Keyword classification of a completed word (`value.upper()` compared
with `AND`/`&&`, `OR`/`||`, `NOT` in `_tokenize`). -/
def classifyWord (w : List Char) : Tok :=
  let upper := String.mk (w.map Char.toUpper)
  if upper = "AND" || upper = "&&" then .and
  else if upper = "OR" || upper = "||" then .or
  else if upper = "NOT" then .not
  else .word (String.mk w)

/-- The main loop of `_tokenize`, with fuel (one unit per loop iteration;
each iteration consumes at least one character, so `length + 1` fuel always
suffices — proved below). -/
def tokenizeF : Nat → List Char → Except PErr (List Tok)
  | 0, _ => .error .outOfFuel
  | _ + 1, [] => .ok []
  | f + 1, c :: rest =>
    if pyIsSpace c then tokenizeF f rest
    else if c = '"' then
      match scanPhrase false rest with
      | some (buf, r) =>
        match tokenizeF f r with
        | .ok ts => .ok (.phrase (String.mk buf) :: ts)
        | .error e => .error e
      | none => .error .unterminatedPhrase
    else if c = '(' then
      match tokenizeF f rest with
      | .ok ts => .ok (.lparen :: ts)
      | .error e => .error e
    else if c = ')' then
      match tokenizeF f rest with
      | .ok ts => .ok (.rparen :: ts)
      | .error e => .error e
    else if c = '!' then
      match tokenizeF f rest with
      | .ok ts => .ok (.not :: ts)
      | .error e => .error e
    else
      match takeWord rest with
      | (w, r) =>
        match tokenizeF f r with
        | .ok ts => .ok (classifyWord (c :: w) :: ts)
        | .error e => .error e

/-- `_tokenize(expr)`. -/
def tokenizeExpr (s : String) : Except PErr (List Tok) :=
  tokenizeF (s.data.length + 1) s.data

/-! ## query_parser.py — AST and recursive-descent parser -/

/-- AST nodes (`_TermNode`, `_NotNode`, `_AndNode`, `_OrNode`). -/
inductive Node where
  | term (value : String) (exact : Bool)
  | notN (child : Node)
  | andN (children : List Node)
  | orN (children : List Node)

/-- Collapse of a would-be single-child `And` in `_parse_and`
(`if len(children) == 1: return children[0]`). -/
def mkAnd : List Node → Node
  | [n] => n
  | ns => .andN ns

/-- Collapse of a would-be single-child `Or` in `_parse_or`. -/
def mkOr : List Node → Node
  | [n] => n
  | ns => .orN ns

/-- `_next_starts_expression`: the lookahead token is a `WORD`, `PHRASE`,
`LPAREN` or `NOT`. -/
def nextStartsExpression : List Tok → Bool
  | .word _ :: _ => true
  | .phrase _ :: _ => true
  | .lparen :: _ => true
  | .not :: _ => true
  | _ => false

/-- The mutually recursive methods of `_BooleanQueryParser`, identified by
level: `_parse_primary`, `_parse_not`, `_parse_and` (entry and its
accumulation loop) and `_parse_or` (entry and its accumulation loop). -/
inductive Lvl where
  | primary
  | notL
  | andL
  | andLoop
  | orL
  | orLoop
deriving DecidableEq, Repr

/-- The recursive-descent parser of `_BooleanQueryParser`, as one function
over a level tag, with fuel making the recursion structural.  `acc` is the
`children` accumulator of the `_parse_and`/`_parse_or` loops (empty and
unused at the other levels).  Each case mirrors the corresponding Python
method; a result carries the parsed node and the unconsumed tokens. -/
def parseF : Nat → Lvl → List Node → List Tok → Except PErr (Node × List Tok)
  | 0, _, _, _ => .error .outOfFuel
  | f + 1, .primary, _, ts =>
    match ts with
    | [] => .error .unexpectedEnd
    | .lparen :: rest =>
      match parseF f .orL [] rest with
      | .ok (n, .rparen :: rest2) => .ok (n, rest2)
      | .ok (_, _) => .error .missingClosingParen
      | .error e => .error e
    | .phrase s :: rest => .ok (.term s true, rest)
    | .word s :: rest => .ok (.term s false, rest)
    | t :: _ => .error (.unexpectedToken (tokValue t))
  | f + 1, .notL, _, ts =>
    match ts with
    | .not :: rest =>
      match parseF f .notL [] rest with
      | .ok (n, r) => .ok (.notN n, r)
      | .error e => .error e
    | _ => parseF f .primary [] ts
  | f + 1, .andL, _, ts =>
    match parseF f .notL [] ts with
    | .ok (n, r) => parseF f .andLoop [n] r
    | .error e => .error e
  | f + 1, .andLoop, acc, ts =>
    match ts with
    | .and :: rest =>
      match parseF f .notL [] rest with
      | .ok (n, r) => parseF f .andLoop (acc ++ [n]) r
      | .error e => .error e
    | _ =>
      if nextStartsExpression ts then
        match parseF f .notL [] ts with
        | .ok (n, r) => parseF f .andLoop (acc ++ [n]) r
        | .error e => .error e
      else .ok (mkAnd acc, ts)
  | f + 1, .orL, _, ts =>
    match parseF f .andL [] ts with
    | .ok (n, r) => parseF f .orLoop [n] r
    | .error e => .error e
  | f + 1, .orLoop, acc, ts =>
    match ts with
    | .or :: rest =>
      match parseF f .andL [] rest with
      | .ok (n, r) => parseF f .orLoop (acc ++ [n]) r
      | .error e => .error e
    | _ => .ok (mkOr acc, ts)

/-- Fuel that always suffices for `parseF` at each level on a token list of
the given length (proved below): the parser consumes at least one token
between any six consecutive nested calls. -/
def parseFuel (ts : List Tok) : Nat := 6 * ts.length + 6

/-- `_BooleanQueryParser.parse`: empty-stream check, top-level `_parse_or`,
trailing-token check. -/
def parseQueryTokens (ts : List Tok) : Except PErr Node :=
  if ts.isEmpty then .error .emptyQuery
  else
    match parseF (parseFuel ts) .orL [] ts with
    | .ok (n, []) => .ok n
    | .ok (_, t :: _) => .error (.unexpectedToken (tokValue t))
    | .error e => .error e

/-- `_BooleanQueryParser(expr).parse()`: tokenize, then parse. -/
def parseQuery (s : String) : Except PErr Node :=
  match tokenizeExpr s with
  | .ok ts => parseQueryTokens ts
  | .error e => .error e

/-! ## query_parser.py — CQL emission (`_emit_cql`) -/

/-- `c.replace(pattern, replacement)` for a single-character pattern (the
only form `_escape_cql_literal` uses): every occurrence of the character is
replaced. -/
def replaceChar (p : Char) (t : List Char) : List Char → List Char
  | [] => []
  | c :: rest => (if c = p then t else [c]) ++ replaceChar p t rest

/-- `_escape_cql_literal`: `value.replace("\\", "\\\\").replace('"', '\\"')`. -/
def escapeCqlLiteral (l : List Char) : List Char :=
  replaceChar '"' ['\\', '"'] (replaceChar '\\' ['\\', '\\'] l)

/-- `_escape_cql_literal` on strings. -/
def escapeStr (v : String) : String := String.mk (escapeCqlLiteral v.data)

/-- Precedence ranks `_PREC_TERM = 4`, `_PREC_NOT = 3`, `_PREC_AND = 2`,
`_PREC_OR = 1`. -/
def PREC_TERM : Nat := 4
def PREC_NOT : Nat := 3
def PREC_AND : Nat := 2
def PREC_OR : Nat := 1

/-- Child rendering in `_emit_cql`: wrap the child's fragment in
parentheses exactly when its precedence is strictly below the rank required
by the parent operator. -/
def renderChild (req : Nat) (sp : String × Nat) : String :=
  if sp.2 < req then "(" ++ sp.1 ++ ")" else sp.1

/-- `_emit_cql`, with fuel bounding the recursion depth (`sizeOf` of the
node always suffices). Returns the CQL fragment and its precedence. -/
def emitF : Nat → Node → String × Nat
  | 0, _ => ("", 0)
  | _ + 1, .term v exact =>
    ("text " ++ (if exact then "adj" else "all") ++ " \"" ++ escapeStr v ++ "\"",
     PREC_TERM)
  | f + 1, .notN c => ("not " ++ renderChild PREC_NOT (emitF f c), PREC_NOT)
  | f + 1, .andN cs =>
    (pyJoin " and " (cs.map (fun c => renderChild PREC_AND (emitF f c))), PREC_AND)
  | f + 1, .orN cs =>
    (pyJoin " or " (cs.map (fun c => renderChild PREC_OR (emitF f c))), PREC_OR)

/-- `build_text_query_clause(expr)`: strip the input, tokenize, parse,
emit.  The emitter runs with fuel one above the parser's fuel bound; any
node the parser produces has depth at most that value (proved below), and
`emitF` is fuel-stable above the depth, so the fuel-exhaustion branch of
`emitF` is never taken and the emitted clause is exactly `_emit_cql`'s. -/
def buildTextQueryClause (expr : String) : Except PErr String :=
  match tokenizeExpr (pyStripS expr) with
  | .ok ts =>
    match parseQueryTokens ts with
    | .ok n => .ok (emitF (parseFuel ts + 1) n).1
    | .error e => .error e
  | .error e => .error e

/-! ## client.py — `_normalize_identifier` -/

/-- The characters of `"ark:/"`. -/
def arkSlashChars : List Char := "ark:/".data

/-- The characters of `"ark:"`. -/
def arkColonChars : List Char := "ark:".data

/-- `GallicaClient._normalize_identifier` on character lists: strip
whitespace; return unchanged if it starts with `ark:/`; otherwise drop a
leading `ark:`, drop leading `/` characters (`lstrip('/')`) and prepend
`ark:/`. -/
def normalizeIdentifierL (s : List Char) : List Char :=
  let ident := pyStripL s
  if arkSlashChars.isPrefixOf ident then ident
  else
    let ident1 := if arkColonChars.isPrefixOf ident then ident.drop 4 else ident
    arkSlashChars ++ ident1.dropWhile (fun c => c = '/')

/-- `GallicaClient._normalize_identifier`. -/
def normalizeIdentifier (s : String) : String :=
  String.mk (normalizeIdentifierL s.data)

/-! ## client.py — texteBrut retrieval -/

/-- Python `s.strip('/')`: drop `/` characters from both ends. -/
def pyStripSlashes (s : String) : String :=
  String.mk (((s.data.dropWhile (fun c => c = '/')).reverse.dropWhile
    (fun c => c = '/')).reverse)

/-- `GallicaClient.TEXT_BASE_URL`. -/
def TEXT_BASE_URL : String := "https://gallica.bnf.fr"

/-- `GallicaClient._build_texte_brut_urls`: the `.texteBrut` suffix form
followed by the `/texteBrut` path form. -/
def buildTexteBrutUrls (ark : String) : List String :=
  let base := TEXT_BASE_URL ++ "/" ++ pyStripSlashes ark
  [base ++ ".texteBrut", base ++ "/texteBrut"]

/-- Outcome of one HTTP GET, abstracting `httpx`: a transport error
(`httpx.HTTPError`, carrying its message) or a response with status code
and body text. -/
inductive FetchResult where
  | transportError (msg : String)
  | response (status : Nat) (body : String)

/-- The per-URL failure entry `_retrieve_texte_brut` appends to `errors`
for a given fetch outcome (`none` when the outcome is a success: status 200
and a body that is non-empty after stripping). -/
def attemptEntry (url : String) (r : FetchResult) : Option String :=
  match r with
  | .transportError msg => some (url ++ " -> " ++ msg)
  | .response status body =>
    if status = 200 ∧ pyStripS body ≠ "" then none
    else some (url ++ " -> HTTP " ++ toString status)

/-- The URL loop of `GallicaClient._retrieve_texte_brut`: try each URL in
order, returning the first successful body; on exhaustion, the
`RuntimeError` message aggregating every attempted URL with its reason.
`fetch` abstracts `_rate_limited_get`. -/
def attemptTexteBrut (fetch : String → FetchResult) (ark : String) :
    List String → List String → Except String String
  | [], errs =>
    .error ("Unable to download texteBrut for " ++ ark ++ " (tried: " ++
      pyJoin "; " errs ++ ")")
  | url :: rest, errs =>
    match fetch url with
    | .transportError msg =>
      attemptTexteBrut fetch ark rest (errs ++ [url ++ " -> " ++ msg])
    | .response status body =>
      if status = 200 ∧ pyStripS body ≠ "" then .ok body
      else attemptTexteBrut fetch ark rest (errs ++ [url ++ " -> HTTP " ++ toString status])

/-- `GallicaClient._retrieve_texte_brut`. -/
def retrieveTexteBrut (fetch : String → FetchResult) (ark : String) :
    Except String String :=
  attemptTexteBrut fetch ark (buildTexteBrutUrls ark) []

/-! ## client.py — search request parameters -/

/-- `start_record = (page - 1) * records_per_page + 1`, computed in
`GallicaClient.search` from the *requested* `records_per_page`, before the
cap is applied. -/
def searchStartRecord (page recordsPerPage : Int) : Int :=
  (page - 1) * recordsPerPage + 1

/-- `records_per_page = min(records_per_page, 50)`, the API cap applied in
`GallicaClient.search` after `start_record` has been computed. -/
def cappedRecords (recordsPerPage : Int) : Int := min recordsPerPage 50

/-- The `params` dictionary of the SRU GET request issued by
`GallicaClient.search`. -/
def searchParams (cqlQuery : String) (page recordsPerPage : Int)
    (exactSearch : Bool) : List (String × String) :=
  [("version", "1.2"),
   ("operation", "searchRetrieve"),
   ("query", cqlQuery),
   ("startRecord", toString (searchStartRecord page recordsPerPage)),
   ("maximumRecords", toString (cappedRecords recordsPerPage)),
   ("collapsing", "false"),
   ("exactSearch", if exactSearch then "true" else "false")]

/-! ## client.py — `_html_to_plain_text`

Each `re.sub` of the Python pipeline is modelled by a left-to-right
scanner: at every position the pattern is attempted; on a match the
replacement is emitted and scanning resumes after the match, otherwise one
character is copied.  Fuel (`length + 1`, one unit per emitted position)
makes the scanners structurally recursive. -/

/-- Generic `re.sub` scanner with a fixed replacement.  `attempt l` matches
the pattern at the head of `l`, returning the remainder after the match. -/
def subScanF (attempt : List Char → Option (List Char)) (repl : List Char) :
    Nat → List Char → List Char
  | 0, l => l
  | _ + 1, [] => []
  | f + 1, c :: rest =>
    match attempt (c :: rest) with
    | some r => repl ++ subScanF attempt repl f r
    | none => c :: subScanF attempt repl f rest

/-- Run a fixed-replacement substitution over a whole character list. -/
def runSub (attempt : List Char → Option (List Char)) (repl : List Char)
    (l : List Char) : List Char :=
  subScanF attempt repl (l.length + 1) l

/-- `[^>]*>`: skip to just past the next `>`, failing when there is none. -/
def takeNonGt : List Char → Option (List Char)
  | [] => none
  | '>' :: r => some r
  | _ :: r => takeNonGt r

/-- Python regex `\w` on a character (ASCII model: letters, digits,
underscore). -/
def isWordChar (c : Char) : Bool := c.isAlphanum || c == '_'

/-- Match `(?i)<\s*br\s*/?>` at the head of the input, returning the
remainder. -/
def tryBr (l : List Char) : Option (List Char) :=
  match l with
  | '<' :: rest =>
    match rest.dropWhile pyIsSpace with
    | b :: rest1 =>
      if b = 'b' ∨ b = 'B' then
        match rest1 with
        | r :: rest2 =>
          if r = 'r' ∨ r = 'R' then
            match rest2.dropWhile pyIsSpace with
            | '/' :: '>' :: rest3 => some rest3
            | '>' :: rest3 => some rest3
            | _ => none
          else none
        | [] => none
      else none
    | [] => none
  | _ => none

/-- Match `(?i)<\s*hr\b[^>]*>` at the head of the input. -/
def tryHr (l : List Char) : Option (List Char) :=
  match l with
  | '<' :: rest =>
    match rest.dropWhile pyIsSpace with
    | h :: rest1 =>
      if h = 'h' ∨ h = 'H' then
        match rest1 with
        | r :: rest2 =>
          if r = 'r' ∨ r = 'R' then
            match rest2 with
            | c :: _ => if isWordChar c then none else takeNonGt rest2
            | [] => none
          else none
        | [] => none
      else none
    | [] => none
  | _ => none

/-- Case-insensitive literal match of a (lower-case) tag name as a prefix,
returning the remainder. -/
def matchTagName : List Char → List Char → Option (List Char)
  | [], l => some l
  | _ :: _, [] => none
  | n :: ns, c :: cs => if c.toLower = n then matchTagName ns cs else none

/-- The alternation `(p|div|section|article|li|h[1-6]|tr|td|table)` of the
block-tag regex, with `h[1-6]` expanded, in the regex's order. -/
def blockTagNames : List (List Char) :=
  ["p".data, "div".data, "section".data, "article".data, "li".data,
   "h1".data, "h2".data, "h3".data, "h4".data, "h5".data, "h6".data,
   "tr".data, "td".data, "table".data]

/-- Try each alternation branch in order: the name must match
(case-insensitively), be followed by a word boundary, and the rest must
contain a closing `>`; otherwise the next branch is tried, as regex
backtracking does. -/
def tryBlockNames : List (List Char) → List Char → Option (List Char)
  | [], _ => none
  | nm :: nms, l =>
    match matchTagName nm l with
    | some r =>
      match r with
      | c :: _ =>
        if isWordChar c then tryBlockNames nms l
        else
          match takeNonGt r with
          | some r2 => some r2
          | none => tryBlockNames nms l
      | [] => tryBlockNames nms l
    | none => tryBlockNames nms l

/-- Match `(?i)</?\s*(p|div|section|article|li|h[1-6]|tr|td|table)\b[^>]*>`
at the head of the input. -/
def tryBlock (l : List Char) : Option (List Char) :=
  match l with
  | '<' :: rest =>
    match rest with
    | '/' :: rest1 => tryBlockNames blockTagNames (rest1.dropWhile pyIsSpace)
    | _ => tryBlockNames blockTagNames (rest.dropWhile pyIsSpace)
  | _ => none

/-- Match `<[^>]+>` at the head of the input (at least one non-`>`
character between the brackets). -/
def tryTag (l : List Char) : Option (List Char) :=
  match l with
  | '<' :: rest =>
    match rest with
    | [] => none
    | '>' :: _ => none
    | _ :: rest2 => takeNonGt rest2
  | _ => none

/-- The `___GALLICA_HR___` placeholder protecting `<hr>` rules from the
generic tag strip. -/
def hrMarker : List Char := "___GALLICA_HR___".data

/-- Match the literal placeholder at the head of the input (for the
`text.replace('___GALLICA_HR___', '<hr>')` step). -/
def tryMarker (l : List Char) : Option (List Char) :=
  if hrMarker.isPrefixOf l then some (l.drop hrMarker.length) else none

/-- The named entities modelled from the Python standard library
`html.unescape`, restricted to the common ones; the theorems below do not
depend on the table's contents. -/
def entityTable : List (List Char × Char) :=
  [("amp;".data, '&'), ("lt;".data, '<'), ("gt;".data, '>'),
   ("quot;".data, '"'), ("apos;".data, '\''), ("nbsp;".data, '\xa0')]

/-- Look up an entity name (after `&`) in the table. -/
def lookupEntity : List (List Char × Char) → List Char → Option (List Char × List Char)
  | [], _ => none
  | (pat, ch) :: tbl, l =>
    if pat.isPrefixOf l then some ([ch], l.drop pat.length)
    else lookupEntity tbl l

/-- Match an HTML entity at the head of the input. -/
def tryEntity : List Char → Option (List Char × List Char)
  | '&' :: rest => lookupEntity entityTable rest
  | _ => none

/-- Generic scanner with a match-dependent replacement. -/
def subScanRF (attempt : List Char → Option (List Char × List Char)) :
    Nat → List Char → List Char
  | 0, l => l
  | _ + 1, [] => []
  | f + 1, c :: rest =>
    match attempt (c :: rest) with
    | some (repl, r) => repl ++ subScanRF attempt f r
    | none => c :: subScanRF attempt f rest

/-- Modelled from the Python standard library `html.unescape`, restricted
to the entities of `entityTable`. -/
def unescapeEntities (l : List Char) : List Char :=
  subScanRF tryEntity (l.length + 1) l

/-- `[\t\x0b\f]+` → `' '`: runs of tab/vertical-tab/form-feed collapse to
one space.  The flag records whether the previous character belonged to
such a run. -/
def isTabVtFf (c : Char) : Bool := c == '\t' || c == '\x0b' || c == '\x0c'

def collapseTabsAux (prev : Bool) : List Char → List Char
  | [] => []
  | c :: rest =>
    if isTabVtFf c then
      if prev then collapseTabsAux true rest
      else ' ' :: collapseTabsAux true rest
    else c :: collapseTabsAux false rest

/-- `\n{3,}` → `'\n\n'`: the counter tracks how many consecutive newlines
immediately precede the current position; from the third one on, newlines
are dropped. -/
def collapseNLAux (run : Nat) : List Char → List Char
  | [] => []
  | c :: rest =>
    if c = '\n' then
      if 2 ≤ run then collapseNLAux (run + 1) rest
      else '\n' :: collapseNLAux (run + 1) rest
    else c :: collapseNLAux 0 rest

/-- `' +\n'` → `'\n'`: spaces immediately preceding a newline are removed
(the recursion looks at the processed tail to see whether a newline
follows the space run). -/
def trimSpacesBeforeNL : List Char → List Char
  | [] => []
  | c :: rest =>
    if c = ' ' then
      if (trimSpacesBeforeNL rest).head? = some '\n' then trimSpacesBeforeNL rest
      else ' ' :: trimSpacesBeforeNL rest
    else c :: trimSpacesBeforeNL rest

/-- `'\n +'` → `'\n'`: spaces immediately following a newline are removed.
The flag is true while the characters seen so far put us just after a
newline (possibly through removed spaces). -/
def trimSpacesAfterNLAux (afterNL : Bool) : List Char → List Char
  | [] => []
  | c :: rest =>
    if c = '\n' then '\n' :: trimSpacesAfterNLAux true rest
    else if c = ' ' then
      if afterNL then trimSpacesAfterNLAux true rest
      else ' ' :: trimSpacesAfterNLAux false rest
    else c :: trimSpacesAfterNLAux false rest

/-- `' {2,}'` → `' '`: runs of spaces collapse to a single space. -/
def collapseSpacesAux (prev : Bool) : List Char → List Char
  | [] => []
  | c :: rest =>
    if c = ' ' then
      if prev then collapseSpacesAux true rest
      else ' ' :: collapseSpacesAux true rest
    else c :: collapseSpacesAux false rest

/-- `GallicaClient._html_to_plain_text` on character lists: the exact
substitution pipeline of the source, in order. -/
def htmlToPlainTextL (html : List Char) : List Char :=
  let t1 := runSub tryBr ['\n'] html
  let t2 := runSub tryHr ('\n' :: hrMarker ++ ['\n']) t1
  let t3 := runSub tryBlock ['\n'] t2
  let t4 := runSub tryTag [] t3
  let t5 := runSub tryMarker "<hr>".data t4
  let t6 := unescapeEntities t5
  let t7 := t6.filter (fun c => c ≠ '\r')
  let t8 := collapseTabsAux false t7
  let t9 := collapseNLAux 0 t8
  let t10 := trimSpacesBeforeNL t9
  let t11 := trimSpacesAfterNLAux false t10
  let t12 := collapseSpacesAux false t11
  pyStripL t12

/-- `GallicaClient._html_to_plain_text`. -/
def htmlToPlainText (s : String) : String := String.mk (htmlToPlainTextL s.data)

/-! ## client.py — `download_text` (cache store) -/

/-- Python `s.replace(old, new)` for a non-empty `old`: replace leftmost
non-overlapping occurrences, scanning left to right.  Fuel (one unit per
scanned position, `length + 1` always suffices) keeps the recursion
structural. -/
def replaceSubL (pat repl : List Char) : Nat → List Char → List Char
  | 0, l => l
  | _ + 1, [] => []
  | f + 1, c :: rest =>
    if pat.isPrefixOf (c :: rest) ∧ pat ≠ [] then
      repl ++ replaceSubL pat repl f ((c :: rest).drop pat.length)
    else c :: replaceSubL pat repl f rest

/-- Python `s.replace(old, new)` on strings (non-empty `old`). -/
def pyReplaceS (s pat repl : String) : String :=
  String.mk (replaceSubL pat.data repl.data (s.data.length + 1) s.data)

/-- `clean_id = identifier.replace('ark:/', '').replace('/', '_')`. -/
def cleanIdOf (identifier : String) : String :=
  pyReplaceS (pyReplaceS identifier "ark:/" "") "/" "_"

/-- The cache file name `f"{clean_id}.txt"` used as the key of the cache
entry. -/
def cacheKey (identifier : String) : String := cleanIdOf identifier ++ ".txt"

/-- `GallicaClient.download_text`, over an explicit cache state (an
association list from file name to file content, abstracting the cache
directory) and the HTML text the network would return.  The result is the
new cache state, the returned path (modelled by the cache key) and the
number of network fetches performed. -/
def downloadText (fetchedHtml : String) (files : List (String × String))
    (identifier : String) : List (String × String) × String × Nat :=
  let key := cacheKey identifier
  match files.lookup key with
  | some _ => (files, key, 0)
  | none => ((key, htmlToPlainText fetchedHtml) :: files, key, 1)

/-! ## Predicates used by the statements below -/

/-- Well-formedness invariant of parsed ASTs: every `And`/`Or` node has at
least two children. -/
inductive NodeWF : Node → Prop where
  | term : ∀ v e, NodeWF (.term v e)
  | notN : ∀ c, NodeWF c → NodeWF (.notN c)
  | andN : ∀ cs, 2 ≤ cs.length → (∀ c ∈ cs, NodeWF c) → NodeWF (.andN cs)
  | orN : ∀ cs, 2 ≤ cs.length → (∀ c ∈ cs, NodeWF c) → NodeWF (.orN cs)

/-- `DepthLE n k`: the AST `n` has depth at most `k`. -/
inductive DepthLE : Node → Nat → Prop where
  | term : ∀ v e k, DepthLE (.term v e) (k + 1)
  | notN : ∀ c k, DepthLE c k → DepthLE (.notN c) (k + 1)
  | andN : ∀ cs k, (∀ c ∈ cs, DepthLE c k) → DepthLE (.andN cs) (k + 1)
  | orN : ∀ cs k, (∀ c ∈ cs, DepthLE c k) → DepthLE (.orN cs) (k + 1)

/-- Undo one level of backslash-escaping: `\c` stands for the character
`c`; a trailing lone backslash stands for itself. -/
def unescapeLit : List Char → List Char
  | [] => []
  | c :: rest =>
    if c = '\\' then
      match rest with
      | [] => ['\\']
      | c2 :: rest2 => c2 :: unescapeLit rest2
    else c :: unescapeLit rest

/-- No occurrence of the character `a` immediately followed by the
character `b`. -/
def noAdj (a b : Char) : List Char → Bool
  | [] => true
  | [_] => true
  | x :: y :: rest => !(x == a && y == b) && noAdj a b (y :: rest)

/-- Contains a run of three (or more) consecutive newline characters. -/
def hasTripleNL : List Char → Bool
  | '\n' :: '\n' :: '\n' :: _ => true
  | _ :: rest => hasTripleNL rest
  | [] => false

/-- The parser failure cases enumerated by the specification: exactly the
errors `_tokenize` and `_BooleanQueryParser` can raise (everything except
the fuel artefact). -/
def MalformedReason : PErr → Prop
  | .unterminatedPhrase => True
  | .emptyQuery => True
  | .unexpectedToken _ => True
  | .unexpectedEnd => True
  | .missingClosingParen => True
  | .outOfFuel => False

/-- Characterization following the spec's words (claim C3): each backslash
and each double quote of the literal is escaped with exactly one
backslash, character by character. -/
def escapeCharwise : List Char → List Char
  | [] => []
  | c :: rest => (if c = '\\' ∨ c = '"' then ['\\', c] else [c]) ++ escapeCharwise rest

/-- Fuel offset per parser level, used by the fuel-sufficiency proof: the
parser makes at most six nested calls at the same token-list length before
consuming a token, in the order `primary < notL < andLoop < andL <
orLoop < orL`. -/
def lvlNeed : Lvl → Nat
  | .primary => 1
  | .notL => 2
  | .andLoop => 3
  | .andL => 4
  | .orLoop => 5
  | .orL => 6

/-! # Theorems

General-purpose helper lemmas, then the per-claim lemmas and the claim
theorems C1–C10. -/

/-! ## Helper lemmas about whitespace stripping -/

theorem dropWhile_head_not (p : Char → Bool) (l : List Char) (c : Char)
    (h : (l.dropWhile p).head? = some c) : p c = false := by
  induction l with
  | nil => simp at h
  | cons a t ih =>
    rw [List.dropWhile_cons] at h
    by_cases hp : p a
    · exact ih (by simpa [hp] using h)
    · simp [hp] at h
      subst h
      simpa using hp

theorem dropWhile_eq_self_of_head (p : Char → Bool) (l : List Char)
    (h : ∀ c, l.head? = some c → p c = false) : l.dropWhile p = l := by
  cases l with
  | nil => rfl
  | cons a t =>
    have := h a rfl
    simp [List.dropWhile_cons, this]

theorem getLast?_of_suffix (l1 l2 : List Char) (h : l1 <:+ l2) (hne : l1 ≠ []) :
    l2.getLast? = l1.getLast? := by
  obtain ⟨t, rfl⟩ := h
  exact List.getLast?_append_of_ne_nil t hne

theorem getLast?_trimRightWS_not_ws (l : List Char) (c : Char)
    (h : (trimRightWS l).getLast? = some c) : pyIsSpace c = false := by
  rw [← List.head?_reverse] at h
  rw [trimRightWS, List.reverse_reverse] at h
  exact dropWhile_head_not _ _ _ h

theorem trimRightWS_eq_self_of_getLast (l : List Char)
    (h : ∀ c, l.getLast? = some c → pyIsSpace c = false) : trimRightWS l = l := by
  rw [trimRightWS, dropWhile_eq_self_of_head, List.reverse_reverse]
  intro c hc
  exact h c (by rwa [List.head?_reverse] at hc)

theorem trimRightWS_idem (l : List Char) :
    trimRightWS (trimRightWS l) = trimRightWS l := by
  rw [trimRightWS, trimRightWS, List.reverse_reverse, List.dropWhile_idempotent]

theorem head?_trimLeftWS_not_ws (l : List Char) (c : Char)
    (h : (trimLeftWS l).head? = some c) : pyIsSpace c = false :=
  dropWhile_head_not _ _ _ h

theorem trimRightWS_front (l : List Char) : trimRightWS l <+: l := by
  rw [trimRightWS]
  have h3 : l.reverse.dropWhile pyIsSpace <:+ l.reverse := List.dropWhile_suffix _
  have h2 : (l.reverse.dropWhile pyIsSpace).reverse <+: l.reverse.reverse :=
    List.reverse_prefix.mpr h3
  rwa [List.reverse_reverse] at h2

theorem trimLeftWS_trimRightWS (l : List Char) (h : trimLeftWS l = l) :
    trimLeftWS (trimRightWS l) = trimRightWS l := by
  apply dropWhile_eq_self_of_head
  intro c hc
  have hpre := trimRightWS_front l
  obtain ⟨t, ht⟩ := hpre
  have hne : trimRightWS l ≠ [] := by
    intro habs
    rw [habs] at hc
    simp at hc
  have : l.head? = some c := by
    rw [← ht, List.head?_append_of_ne_nil _ hne]
    exact hc
  rw [← h] at this
  exact head?_trimLeftWS_not_ws l c this

theorem pyStripL_idem (l : List Char) : pyStripL (pyStripL l) = pyStripL l := by
  rw [pyStripL, pyStripL]
  rw [trimLeftWS_trimRightWS (trimLeftWS l) (List.dropWhile_idempotent _ _),
    trimRightWS_idem]

theorem getLast?_pyStripL_not_ws (l : List Char) (c : Char)
    (h : (pyStripL l).getLast? = some c) : pyIsSpace c = false :=
  getLast?_trimRightWS_not_ws _ c h

/-! ## Claim C3 — literal escaping round-trips -/

theorem replaceChar_append (p : Char) (t a b : List Char) :
    replaceChar p t (a ++ b) = replaceChar p t a ++ replaceChar p t b := by
  induction a with
  | nil => rfl
  | cons c rest ih => simp [replaceChar, ih]

theorem escapeCqlLiteral_eq_charwise (l : List Char) :
    escapeCqlLiteral l = escapeCharwise l := by
  induction l with
  | nil => rfl
  | cons c rest ih =>
    rw [escapeCqlLiteral, replaceChar] at *
    rw [replaceChar_append, ih]
    by_cases h1 : c = '\\'
    · subst h1
      simp [escapeCharwise, replaceChar, escapeCqlLiteral]
    · by_cases h2 : c = '"'
      · subst h2
        simp [escapeCharwise, replaceChar, escapeCqlLiteral]
      · simp [escapeCharwise, replaceChar, escapeCqlLiteral, h1, h2]

theorem unescapeLit_cons_ne (c : Char) (l : List Char) (h : ¬ c = '\\') :
    unescapeLit (c :: l) = c :: unescapeLit l := by
  cases l with
  | nil => simp [unescapeLit, h]
  | cons c2 rest2 => simp [unescapeLit, h]

theorem unescapeLit_escapeCharwise (l : List Char) :
    unescapeLit (escapeCharwise l) = l := by
  induction l with
  | nil => rfl
  | cons c rest ih =>
    rw [escapeCharwise]
    by_cases h : c = '\\' ∨ c = '"'
    · rw [if_pos h]
      show unescapeLit ('\\' :: c :: escapeCharwise rest) = c :: rest
      simp [unescapeLit, ih]
    · push_neg at h
      rw [if_neg (by tauto)]
      show unescapeLit (c :: escapeCharwise rest) = c :: rest
      rw [unescapeLit_cons_ne c _ h.1, ih]

/-- Claim C3: the emitter escapes each backslash and each double quote of a
term literal with exactly one backslash before wrapping it in quotes
(`emitF` renders a term as `text <rel> "<escaped>"`), and unescaping the
escaped literal reproduces the original literal exactly. -/
theorem c3_escaping_roundtrip :
    (∀ l : List Char, escapeCqlLiteral l = escapeCharwise l) ∧
    (∀ l : List Char, unescapeLit (escapeCqlLiteral l) = l) ∧
    (∀ (f : Nat) (v : String) (exact : Bool),
      emitF (f + 1) (.term v exact) =
        ("text " ++ (if exact then "adj" else "all") ++ " \"" ++ escapeStr v ++ "\"",
         PREC_TERM)) := by
  refine ⟨escapeCqlLiteral_eq_charwise, fun l => ?_, fun f v exact => rfl⟩
  rw [escapeCqlLiteral_eq_charwise]
  exact unescapeLit_escapeCharwise l

/-! ## Claim C10 — identifier normalization -/

theorem normalizeIdentifierL_ark (x : List Char) :
    arkSlashChars.isPrefixOf (normalizeIdentifierL x) = true := by
  rw [normalizeIdentifierL]
  by_cases h : arkSlashChars.isPrefixOf (pyStripL x) = true
  · simp [h]
  · simp only [h, if_false, Bool.false_eq_true]
    rw [List.isPrefixOf_iff_prefix]
    exact List.prefix_append _ _

theorem pyStripL_of_ark_append (u : List Char)
    (h : ∀ c, u.getLast? = some c → pyIsSpace c = false) :
    pyStripL (arkSlashChars ++ u) = arkSlashChars ++ u := by
  rw [pyStripL]
  rw [show trimLeftWS (arkSlashChars ++ u) = arkSlashChars ++ u from
    dropWhile_eq_self_of_head _ _ (by
      intro c hc
      rw [show ((arkSlashChars ++ u).head? = some c) ↔ c = 'a' from by
        simp [arkSlashChars]; tauto] at hc
      subst hc
      decide)]
  apply trimRightWS_eq_self_of_getLast
  intro c hc
  by_cases hu : u = []
  · subst hu
    simp [arkSlashChars] at hc
    subst hc
    decide
  · rw [List.getLast?_append_of_ne_nil _ hu] at hc
    exact h c hc

theorem getLast?_dropSlash_of_pyStrip (x v : List Char)
    (hsuf : v <:+ pyStripL x) :
    ∀ c, (v.dropWhile (fun c => c = '/')).getLast? = some c →
      pyIsSpace c = false := by
  intro c hc
  have hne : v.dropWhile (fun c => c = '/') ≠ [] := by
    intro habs; rw [habs] at hc; simp at hc
  have h1 : v.getLast? = some c := by
    rw [getLast?_of_suffix _ v (List.dropWhile_suffix _) hne]
    exact hc
  have hvne : v ≠ [] := by rintro rfl; simp at h1
  have h2 : (pyStripL x).getLast? = some c := by
    rw [getLast?_of_suffix v _ hsuf hvne]
    exact h1
  exact getLast?_pyStripL_not_ws x c h2

theorem normalizeIdentifierL_idem (x : List Char) :
    normalizeIdentifierL (normalizeIdentifierL x) = normalizeIdentifierL x := by
  by_cases h : arkSlashChars.isPrefixOf (pyStripL x) = true
  · have hx : normalizeIdentifierL x = pyStripL x := by
      rw [normalizeIdentifierL]; simp [h]
    rw [hx, normalizeIdentifierL, pyStripL_idem, if_pos h]
  · have hx : normalizeIdentifierL x =
        arkSlashChars ++ ((if arkColonChars.isPrefixOf (pyStripL x) = true then
          (pyStripL x).drop 4 else pyStripL x).dropWhile (fun c => c = '/')) := by
      rw [normalizeIdentifierL]; simp [h]
    have hsuf : (if arkColonChars.isPrefixOf (pyStripL x) = true then
        (pyStripL x).drop 4 else pyStripL x) <:+ pyStripL x := by
      split
      · exact List.drop_suffix _ _
      · exact List.suffix_refl _
    rw [hx, normalizeIdentifierL,
      pyStripL_of_ark_append _ (getLast?_dropSlash_of_pyStrip x _ hsuf),
      if_pos (by rw [List.isPrefixOf_iff_prefix]; exact List.prefix_append _ _)]

/-- Claim C10: `_normalize_identifier` always returns a string starting
with `ark:/`, and it is idempotent. -/
theorem c10_normalize_identifier (s : String) :
    arkSlashChars.isPrefixOf (normalizeIdentifier s).data = true ∧
    normalizeIdentifier (normalizeIdentifier s) = normalizeIdentifier s := by
  constructor
  · exact normalizeIdentifierL_ark s.data
  · show String.mk (normalizeIdentifierL (String.mk (normalizeIdentifierL s.data)).data) = _
    rw [show (String.mk (normalizeIdentifierL s.data)).data = normalizeIdentifierL s.data
      from rfl, normalizeIdentifierL_idem]
    rfl

/-! ## Claim C8 — search paging parameters -/

/-- Claim C8 counterexample: at page 2 with requested page size 100, the
start offset is computed from the *uncapped* page size (`(2-1)*100+1 =
101`), not from the capped one (`(2-1)*min(100,50)+1 = 51`) as the claim
states. -/
theorem c8_counterexample :
    searchStartRecord 2 100 = 101 ∧
    ¬ searchStartRecord 2 100 = (2 - 1) * cappedRecords 100 + 1 ∧
    ("startRecord", "101") ∈ searchParams "q" 2 100 true ∧
    ("startRecord", "51") ∉ searchParams "q" 2 100 true := by
  refine ⟨rfl, by decide, by decide, by decide⟩

/-- Claim C8 (amended): the issued request carries a start offset of
`(page-1)*n + 1` computed from the *requested* page size `n`, and a
maximum-records parameter of `min(n, 50)`. -/
theorem c8_amended (cql : String) (page rpp : Int) (ex : Bool) :
    ("startRecord", toString ((page - 1) * rpp + 1)) ∈ searchParams cql page rpp ex ∧
    ("maximumRecords", toString (min rpp 50)) ∈ searchParams cql page rpp ex := by
  constructor
  · simp [searchParams, searchStartRecord]
  · simp [searchParams, cappedRecords]

/-! ## Claim C9 — cache idempotence of `download_text` -/

/-- Claim C9: if a cache file already exists under the identifier's key,
`download_text` returns that path with no network fetch and an unchanged
cache; consequently two sequential calls for the same identifier perform at
most one fetch in total, return the same path, and leave the cache of the
second call identical to that after the first (so both paths hold
byte-identical content). -/
theorem c9_cache_idempotent :
    (∀ (html : String) (files : List (String × String)) (id c : String),
      files.lookup (cacheKey id) = some c →
      downloadText html files id = (files, cacheKey id, 0)) ∧
    (∀ (html html2 : String) (files : List (String × String)) (id : String),
      (downloadText html files id).2.2 +
        (downloadText html2 (downloadText html files id).1 id).2.2 ≤ 1 ∧
      (downloadText html2 (downloadText html files id).1 id).2.1 =
        (downloadText html files id).2.1 ∧
      (downloadText html2 (downloadText html files id).1 id).1 =
        (downloadText html files id).1) := by
  constructor
  · intro html files id c h
    simp [downloadText, h]
  · intro html html2 files id
    rcases h0 : files.lookup (cacheKey id) with _ | c
    · simp [downloadText, h0]
    · simp [downloadText, h0]

/-- Witness for claim C9 at a concrete cached identifier. -/
theorem c9_cache_idempotent_witness :
    downloadText "html" [(cacheKey "ark:/12148/b1", "cached")] "ark:/12148/b1" =
      ([(cacheKey "ark:/12148/b1", "cached")], cacheKey "ark:/12148/b1", 0) :=
  c9_cache_idempotent.1 "html" [(cacheKey "ark:/12148/b1", "cached")]
    "ark:/12148/b1" "cached" (by decide)

/-! ## Claim C7 — texteBrut URL fallback -/

theorem string_data_append (a b : String) : (a ++ b).data = a.data ++ b.data := rfl

/-- Claim C7: full-text retrieval tries the `.texteBrut` suffix form first
and the `/texteBrut` path form second; it returns the body of the first
response with status 200 and a body that is non-blank after stripping,
without consulting the later variant; and if both variants fail, the error
message contains every attempted URL together with that URL's failure
reason (as built by `attemptEntry`). -/
theorem c7_texte_brut_fallback (fetch : String → FetchResult) (ark u1 u2 : String)
    (hurls : buildTexteBrutUrls ark = [u1, u2]) :
    u1 = TEXT_BASE_URL ++ "/" ++ pyStripSlashes ark ++ ".texteBrut" ∧
    u2 = TEXT_BASE_URL ++ "/" ++ pyStripSlashes ark ++ "/texteBrut" ∧
    (∀ b, fetch u1 = .response 200 b → pyStripS b ≠ "" →
      retrieveTexteBrut fetch ark = .ok b) ∧
    (∀ e1 b, attemptEntry u1 (fetch u1) = some e1 →
      fetch u2 = .response 200 b → pyStripS b ≠ "" →
      retrieveTexteBrut fetch ark = .ok b) ∧
    (∀ e1 e2, attemptEntry u1 (fetch u1) = some e1 →
      attemptEntry u2 (fetch u2) = some e2 →
      retrieveTexteBrut fetch ark =
        .error ("Unable to download texteBrut for " ++ ark ++
          " (tried: " ++ e1 ++ "; " ++ e2 ++ ")") ∧
      e1.data <:+: ("Unable to download texteBrut for " ++ ark ++
        " (tried: " ++ e1 ++ "; " ++ e2 ++ ")").data ∧
      e2.data <:+: ("Unable to download texteBrut for " ++ ark ++
        " (tried: " ++ e1 ++ "; " ++ e2 ++ ")").data) := by
  have hu1 : u1 = TEXT_BASE_URL ++ "/" ++ pyStripSlashes ark ++ ".texteBrut" := by
    have := hurls
    rw [buildTexteBrutUrls] at this
    injection this with h1 h2
    exact h1.symm
  have hu2 : u2 = TEXT_BASE_URL ++ "/" ++ pyStripSlashes ark ++ "/texteBrut" := by
    have := hurls
    rw [buildTexteBrutUrls] at this
    injection this with h1 h2
    injection h2 with h3 _
    exact h3.symm
  have hret : retrieveTexteBrut fetch ark = attemptTexteBrut fetch ark [u1, u2] [] := by
    rw [retrieveTexteBrut, hurls]
  refine ⟨hu1, hu2, ?_, ?_, ?_⟩
  · intro b hf hb
    rw [hret]
    simp [attemptTexteBrut, hf, hb]
  · intro e1 b h1 hf hb
    rw [hret]
    rcases hf1 : fetch u1 with m | ⟨st, body⟩
    · simp [attemptTexteBrut, hf1, hf, hb]
    · simp only [attemptEntry, hf1] at h1
      split at h1
      · simp at h1
      · rename_i hcond
        simp only [attemptTexteBrut, hf1, hf, if_neg hcond]
        simp [hb]
  · intro e1 e2 h1 h2
    have step : ∀ (errs : List String),
        attemptTexteBrut fetch ark [u1, u2] errs =
          attemptTexteBrut fetch ark [u2] (errs ++ [e1]) := by
      intro errs
      rcases hf1 : fetch u1 with m | ⟨st, body⟩
      · simp only [attemptEntry, hf1, Option.some.injEq] at h1
        simp [attemptTexteBrut, hf1, h1]
      · simp only [attemptEntry, hf1] at h1
        split at h1
        · simp at h1
        · rename_i hcond
          rw [Option.some.injEq] at h1
          simp only [attemptTexteBrut, hf1, if_neg hcond, h1]
    have step2 : ∀ (errs : List String),
        attemptTexteBrut fetch ark [u2] errs =
          attemptTexteBrut fetch ark [] (errs ++ [e2]) := by
      intro errs
      rcases hf2 : fetch u2 with m | ⟨st, body⟩
      · simp only [attemptEntry, hf2, Option.some.injEq] at h2
        simp [attemptTexteBrut, hf2, h2]
      · simp only [attemptEntry, hf2] at h2
        split at h2
        · simp at h2
        · rename_i hcond
          rw [Option.some.injEq] at h2
          simp only [attemptTexteBrut, hf2, if_neg hcond, h2]
    have hmsg : retrieveTexteBrut fetch ark =
        .error ("Unable to download texteBrut for " ++ ark ++
          " (tried: " ++ e1 ++ "; " ++ e2 ++ ")") := by
      rw [hret, step, step2, attemptTexteBrut]
      refine congrArg Except.error (String.ext ?_)
      simp [string_data_append, pyJoin, List.append_assoc]
    refine ⟨hmsg, ?_, ?_⟩
    · refine ⟨("Unable to download texteBrut for " ++ ark ++ " (tried: ").data,
        ("; " ++ e2 ++ ")").data, ?_⟩
      simp only [string_data_append, List.append_assoc]
    · refine ⟨("Unable to download texteBrut for " ++ ark ++
        " (tried: " ++ e1 ++ "; ").data, (")").data, ?_⟩
      simp only [string_data_append, List.append_assoc]

/-- Witness for claim C7: a fetch answering 200 with body `"hello"` on the
first variant makes retrieval return that body. -/
theorem c7_texte_brut_fallback_witness :
    retrieveTexteBrut (fun _ => .response 200 "hello") "ark:/1/x" = .ok "hello" :=
  (c7_texte_brut_fallback (fun _ => .response 200 "hello") "ark:/1/x"
    "https://gallica.bnf.fr/ark:/1/x.texteBrut"
    "https://gallica.bnf.fr/ark:/1/x/texteBrut" rfl).2.2.1 "hello" rfl (by decide)

/-! ## Claims C1 and C2 — emitted clauses for concrete inputs -/

/-- Claim C1 counterexample: the emitter joins *all* children of an `And`
node with `" and "`, so the implicitly conjoined `NOT` clause is preceded
by `and`; the clause claimed by the specification (without that `and`) is
not what `build_text_query_clause` returns. -/
theorem c1_counterexample :
    buildTextQueryClause "magic AND (illusion OR escape) NOT \"card tricks\"" ≠
      .ok "text all \"magic\" and (text all \"illusion\" or text all \"escape\") not text adj \"card tricks\"" := by
  intro h
  rw [show buildTextQueryClause "magic AND (illusion OR escape) NOT \"card tricks\"" =
      .ok "text all \"magic\" and (text all \"illusion\" or text all \"escape\") and not text adj \"card tricks\""
    from rfl] at h
  injection h with h'
  exact absurd h' (by decide)

/-- Claim C1 (amended): for the input
`magic AND (illusion OR escape) NOT "card tricks"`,
`build_text_query_clause` returns exactly
`text all "magic" and (text all "illusion" or text all "escape") and not
text adj "card tricks"` — with relation `all` for the unquoted words and
`adj` for the quoted phrase, and with `and` also emitted before the
implicitly conjoined `not` clause. -/
theorem c1_end_to_end :
    buildTextQueryClause "magic AND (illusion OR escape) NOT \"card tricks\"" =
      .ok "text all \"magic\" and (text all \"illusion\" or text all \"escape\") and not text adj \"card tricks\"" :=
  rfl

/-- Claim C2: `a OR b AND c` emits without any parenthesis (the `And`
sub-clause is not parenthesized), `(a OR b) AND c` emits with parentheses
around the `Or` sub-clause, the two emitted strings differ, and in general
the emitter parenthesizes a child exactly when the child's precedence rank
(`term`=4, `not`=3, `and`=2, `or`=1) is strictly below the rank required by
its parent's operator (`renderChild`, used by `emitF` at each composite
node with the parent's rank). -/
theorem c2_precedence_parentheses :
    buildTextQueryClause "a OR b AND c" =
      .ok "text all \"a\" or text all \"b\" and text all \"c\"" ∧
    '(' ∉ ("text all \"a\" or text all \"b\" and text all \"c\"").data ∧
    buildTextQueryClause "(a OR b) AND c" =
      .ok "(text all \"a\" or text all \"b\") and text all \"c\"" ∧
    ("text all \"a\" or text all \"b\" and text all \"c\"" : String) ≠
      "(text all \"a\" or text all \"b\") and text all \"c\"" ∧
    (∀ (req : Nat) (sp : String × Nat),
      renderChild req sp = if sp.2 < req then "(" ++ sp.1 ++ ")" else sp.1) ∧
    (∀ (f : Nat) (c : Node),
      emitF (f + 1) (.notN c) = ("not " ++ renderChild PREC_NOT (emitF f c), PREC_NOT)) ∧
    (∀ (f : Nat) (cs : List Node),
      emitF (f + 1) (.andN cs) =
        (pyJoin " and " (cs.map (fun c => renderChild PREC_AND (emitF f c))), PREC_AND)) ∧
    (∀ (f : Nat) (cs : List Node),
      emitF (f + 1) (.orN cs) =
        (pyJoin " or " (cs.map (fun c => renderChild PREC_OR (emitF f c))), PREC_OR)) := by
  refine ⟨rfl, by decide, rfl, by decide, fun req sp => rfl, fun f c => rfl,
    fun f cs => rfl, fun f cs => rfl⟩

/-! ## Parser lemmas: reduction steps, consumption, fuel sufficiency -/

theorem parseF_notL_step (f : Nat) (x : List Node) (ts : List Tok)
    (h : ts.head? ≠ some Tok.not) :
    parseF (f + 1) .notL x ts = parseF f .primary [] ts := by
  cases ts with
  | nil => rfl
  | cons t tail => cases t <;> first | rfl | exact absurd rfl h

theorem parseF_andLoop_step (f : Nat) (acc : List Node) (ts : List Tok)
    (h : ts.head? ≠ some Tok.and) :
    parseF (f + 1) .andLoop acc ts =
      (if nextStartsExpression ts then
        match parseF f .notL [] ts with
        | .ok (n, r) => parseF f .andLoop (acc ++ [n]) r
        | .error e => .error e
      else .ok (mkAnd acc, ts)) := by
  cases ts with
  | nil => rfl
  | cons t tail => cases t <;> first | rfl | exact absurd rfl h

theorem parseF_orLoop_step (f : Nat) (acc : List Node) (ts : List Tok)
    (h : ts.head? ≠ some Tok.or) :
    parseF (f + 1) .orLoop acc ts = .ok (mkOr acc, ts) := by
  cases ts with
  | nil => rfl
  | cons t tail => cases t <;> first | rfl | exact absurd rfl h

/-- Token consumption: a successful parse consumes tokens — strictly so at
the entry levels, and at least weakly in the accumulation loops. -/
theorem parseF_consume : ∀ (f : Nat) (lvl : Lvl) (acc : List Node) (ts : List Tok)
    (n : Node) (r : List Tok), parseF f lvl acc ts = .ok (n, r) →
    r.length ≤ ts.length ∧
      (lvl ≠ .andLoop → lvl ≠ .orLoop → r.length < ts.length) := by
  intro f
  induction f with
  | zero => intro lvl acc ts n r h; exact absurd h (by simp [parseF])
  | succ f ih =>
    intro lvl acc ts n r h
    cases lvl
    case primary =>
      cases ts with
      | nil => simp [parseF] at h
      | cons t tail =>
        cases t
        case lparen =>
          simp only [parseF] at h
          rcases hin : parseF f .orL [] tail with e | ⟨n1, r1⟩
          · rw [hin] at h; simp at h
          · rw [hin] at h
            rcases r1 with _ | ⟨t2, r2⟩
            · simp at h
            · cases t2 <;> simp at h
              obtain ⟨rfl, rfl⟩ := h
              have hc := (ih .orL [] tail n1 (Tok.rparen :: r2) hin).2
                (by simp) (by simp)
              simp at hc ⊢
              omega
        case phrase s =>
          simp only [parseF, Except.ok.injEq, Prod.mk.injEq] at h
          obtain ⟨rfl, rfl⟩ := h
          simp
        case word s =>
          simp only [parseF, Except.ok.injEq, Prod.mk.injEq] at h
          obtain ⟨rfl, rfl⟩ := h
          simp
        case and => simp [parseF] at h
        case or => simp [parseF] at h
        case not => simp [parseF] at h
        case rparen => simp [parseF] at h
    case notL =>
      by_cases hh : ts.head? = some Tok.not
      · rcases ts with _ | ⟨t, tail⟩
        · simp at hh
        · simp at hh
          subst hh
          simp only [parseF] at h
          rcases hin : parseF f .notL [] tail with e | ⟨n1, r1⟩
          · rw [hin] at h; simp at h
          · rw [hin] at h
            simp at h
            obtain ⟨rfl, rfl⟩ := h
            have hc := (ih .notL [] tail n1 r1 hin).2 (by simp) (by simp)
            simp
            omega
      · rw [parseF_notL_step f acc ts hh] at h
        have hc := (ih .primary [] ts n r h).2 (by simp) (by simp)
        exact ⟨Nat.le_of_lt hc, fun _ _ => hc⟩
    case andL =>
      simp only [parseF] at h
      rcases hin : parseF f .notL [] ts with e | ⟨n1, r1⟩
      · rw [hin] at h; simp at h
      · rw [hin] at h
        have hc1 := (ih .notL [] ts n1 r1 hin).2 (by simp) (by simp)
        have hc2 := (ih .andLoop [n1] r1 n r h).1
        exact ⟨by omega, fun _ _ => by omega⟩
    case orL =>
      simp only [parseF] at h
      rcases hin : parseF f .andL [] ts with e | ⟨n1, r1⟩
      · rw [hin] at h; simp at h
      · rw [hin] at h
        have hc1 := (ih .andL [] ts n1 r1 hin).2 (by simp) (by simp)
        have hc2 := (ih .orLoop [n1] r1 n r h).1
        exact ⟨by omega, fun _ _ => by omega⟩
    case andLoop =>
      by_cases hh : ts.head? = some Tok.and
      · rcases ts with _ | ⟨t, tail⟩
        · simp at hh
        · simp at hh
          subst hh
          simp only [parseF] at h
          rcases hin : parseF f .notL [] tail with e | ⟨n1, r1⟩
          · rw [hin] at h; simp at h
          · rw [hin] at h
            have hc1 := (ih .notL [] tail n1 r1 hin).2 (by simp) (by simp)
            have hc2 := (ih .andLoop (acc ++ [n1]) r1 n r h).1
            refine ⟨by simp; omega, fun hab _ => absurd rfl hab⟩
      · rw [parseF_andLoop_step f acc ts hh] at h
        split at h
        · rcases hin : parseF f .notL [] ts with e | ⟨n1, r1⟩
          · rw [hin] at h; simp at h
          · rw [hin] at h
            have hc1 := (ih .notL [] ts n1 r1 hin).2 (by simp) (by simp)
            have hc2 := (ih .andLoop (acc ++ [n1]) r1 n r h).1
            refine ⟨by omega, fun hab _ => absurd rfl hab⟩
        · simp at h
          obtain ⟨rfl, rfl⟩ := h
          exact ⟨Nat.le_refl _, fun hab _ => absurd rfl hab⟩
    case orLoop =>
      by_cases hh : ts.head? = some Tok.or
      · rcases ts with _ | ⟨t, tail⟩
        · simp at hh
        · simp at hh
          subst hh
          simp only [parseF] at h
          rcases hin : parseF f .andL [] tail with e | ⟨n1, r1⟩
          · rw [hin] at h; simp at h
          · rw [hin] at h
            have hc1 := (ih .andL [] tail n1 r1 hin).2 (by simp) (by simp)
            have hc2 := (ih .orLoop (acc ++ [n1]) r1 n r h).1
            refine ⟨by simp; omega, fun _ hab => absurd rfl hab⟩
      · rw [parseF_orLoop_step f acc ts hh] at h
        simp at h
        obtain ⟨rfl, rfl⟩ := h
        exact ⟨Nat.le_refl _, fun _ hab => absurd rfl hab⟩

/-- Fuel sufficiency: with fuel at least `6·length + lvlNeed lvl`, the
parser never runs out of fuel, so the `outOfFuel` artefact is unreachable
from `parseQueryTokens` (which supplies `6·length + 6`). -/
theorem parseF_no_fuel_error : ∀ (f : Nat) (lvl : Lvl) (acc : List Node) (ts : List Tok),
    6 * ts.length + lvlNeed lvl ≤ f → parseF f lvl acc ts ≠ .error .outOfFuel := by
  intro f
  induction f with
  | zero =>
    intro lvl acc ts hle
    cases lvl <;> simp [lvlNeed] at hle
  | succ f ih =>
    intro lvl acc ts hle h
    cases lvl
    case primary =>
      cases ts with
      | nil => simp [parseF] at h
      | cons t tail =>
        cases t
        case lparen =>
          simp only [parseF] at h
          rcases hin : parseF f .orL [] tail with e | ⟨n1, r1⟩
          · rw [hin] at h
            simp at h
            subst h
            exact ih .orL [] tail
              (by simp [lvlNeed] at hle ⊢; omega) hin
          · rw [hin] at h
            rcases r1 with _ | ⟨t2, r2⟩
            · simp at h
            · cases t2 <;> simp at h
        case phrase s => simp [parseF] at h
        case word s => simp [parseF] at h
        case and => simp [parseF] at h
        case or => simp [parseF] at h
        case not => simp [parseF] at h
        case rparen => simp [parseF] at h
    case notL =>
      by_cases hh : ts.head? = some Tok.not
      · rcases ts with _ | ⟨t, tail⟩
        · simp at hh
        · simp at hh
          subst hh
          simp only [parseF] at h
          rcases hin : parseF f .notL [] tail with e | ⟨n1, r1⟩
          · rw [hin] at h
            simp at h
            subst h
            exact ih .notL [] tail (by simp [lvlNeed] at hle ⊢; omega) hin
          · rw [hin] at h; simp at h
      · rw [parseF_notL_step f acc ts hh] at h
        exact ih .primary [] ts (by simp [lvlNeed] at hle ⊢; omega) h
    case andL =>
      simp only [parseF] at h
      rcases hin : parseF f .notL [] ts with e | ⟨n1, r1⟩
      · rw [hin] at h
        simp at h
        subst h
        exact ih .notL [] ts (by simp [lvlNeed] at hle ⊢; omega) hin
      · rw [hin] at h
        have hc := (parseF_consume f .notL [] ts n1 r1 hin).2 (by simp) (by simp)
        exact ih .andLoop [n1] r1 (by simp [lvlNeed] at hle ⊢; omega) h
    case orL =>
      simp only [parseF] at h
      rcases hin : parseF f .andL [] ts with e | ⟨n1, r1⟩
      · rw [hin] at h
        simp at h
        subst h
        exact ih .andL [] ts (by simp [lvlNeed] at hle ⊢; omega) hin
      · rw [hin] at h
        have hc := (parseF_consume f .andL [] ts n1 r1 hin).2 (by simp) (by simp)
        exact ih .orLoop [n1] r1 (by simp [lvlNeed] at hle ⊢; omega) h
    case andLoop =>
      by_cases hh : ts.head? = some Tok.and
      · rcases ts with _ | ⟨t, tail⟩
        · simp at hh
        · simp at hh
          subst hh
          simp only [parseF] at h
          rcases hin : parseF f .notL [] tail with e | ⟨n1, r1⟩
          · rw [hin] at h
            simp at h
            subst h
            exact ih .notL [] tail (by simp [lvlNeed] at hle ⊢; omega) hin
          · rw [hin] at h
            have hc := (parseF_consume f .notL [] tail n1 r1 hin).2 (by simp) (by simp)
            exact ih .andLoop (acc ++ [n1]) r1
              (by simp [lvlNeed] at hle ⊢; omega) h
      · rw [parseF_andLoop_step f acc ts hh] at h
        split at h
        · rcases hin : parseF f .notL [] ts with e | ⟨n1, r1⟩
          · rw [hin] at h
            simp at h
            subst h
            exact ih .notL [] ts (by simp [lvlNeed] at hle ⊢; omega) hin
          · rw [hin] at h
            have hc := (parseF_consume f .notL [] ts n1 r1 hin).2 (by simp) (by simp)
            exact ih .andLoop (acc ++ [n1]) r1
              (by simp [lvlNeed] at hle ⊢; omega) h
        · simp at h
    case orLoop =>
      by_cases hh : ts.head? = some Tok.or
      · rcases ts with _ | ⟨t, tail⟩
        · simp at hh
        · simp at hh
          subst hh
          simp only [parseF] at h
          rcases hin : parseF f .andL [] tail with e | ⟨n1, r1⟩
          · rw [hin] at h
            simp at h
            subst h
            exact ih .andL [] tail (by simp [lvlNeed] at hle ⊢; omega) hin
          · rw [hin] at h
            have hc := (parseF_consume f .andL [] tail n1 r1 hin).2 (by simp) (by simp)
            exact ih .orLoop (acc ++ [n1]) r1
              (by simp [lvlNeed] at hle ⊢; omega) h
      · rw [parseF_orLoop_step f acc ts hh] at h
        simp at h

/-! ## Tokenizer lemmas and claim C4 -/

theorem scanPhrase_lt : ∀ (l : List Char) (esc : Bool) (buf r : List Char),
    scanPhrase esc l = some (buf, r) → r.length < l.length := by
  intro l
  induction l with
  | nil => intro esc buf r h; simp [scanPhrase] at h
  | cons c rest ih =>
    intro esc buf r h
    simp only [scanPhrase] at h
    by_cases hesc : esc = true
    · rw [if_pos hesc] at h
      rcases hin : scanPhrase false rest with _ | ⟨buf2, r2⟩
      · rw [hin] at h; simp at h
      · rw [hin] at h
        simp at h
        obtain ⟨h1, h2⟩ := h
        subst h2
        have := ih false buf2 r2 hin
        simp
        omega
    · rw [if_neg hesc] at h
      by_cases hc : c = '\\'
      · rw [if_pos hc] at h
        have := ih true buf r h
        simp
        omega
      · rw [if_neg hc] at h
        by_cases hq : c = '"'
        · rw [if_pos hq] at h
          simp at h
          obtain ⟨h1, h2⟩ := h
          subst h2
          simp
        · rw [if_neg hq] at h
          rcases hin : scanPhrase false rest with _ | ⟨buf2, r2⟩
          · rw [hin] at h; simp at h
          · rw [hin] at h
            simp at h
            obtain ⟨h1, h2⟩ := h
            subst h2
            have := ih false buf2 r2 hin
            simp
            omega

theorem takeWord_le : ∀ (l : List Char), (takeWord l).2.length ≤ l.length := by
  intro l
  induction l with
  | nil => simp [takeWord]
  | cons c rest ih =>
    simp only [takeWord]
    by_cases hw : wordChar c = true
    · rw [if_pos hw]
      rcases htw : takeWord rest with ⟨w, r⟩
      rw [htw] at ih
      simp at ih ⊢
      omega
    · rw [if_neg hw]

/-- With sufficient fuel the tokenizer either succeeds or fails with the
unterminated-phrase error — never with the fuel artefact. -/
theorem tokenizeF_ok_or_unterminated : ∀ (f : Nat) (l : List Char), l.length < f →
    (∃ ts, tokenizeF f l = .ok ts) ∨ tokenizeF f l = .error .unterminatedPhrase := by
  intro f
  induction f with
  | zero => intro l hl; omega
  | succ f ih =>
    intro l hl
    cases l with
    | nil => exact Or.inl ⟨[], rfl⟩
    | cons c rest =>
      simp only [tokenizeF]
      by_cases hsp : pyIsSpace c = true
      · rw [if_pos hsp]
        exact ih rest (by simp at hl; omega)
      · rw [if_neg hsp]
        by_cases hq : c = '"'
        · rw [if_pos hq]
          rcases hsc : scanPhrase false rest with _ | ⟨buf, r⟩
          · exact Or.inr rfl
          · have hr := scanPhrase_lt rest false buf r hsc
            rcases ih r (by simp at hl; omega) with ⟨ts, hts⟩ | herr
            · refine Or.inl ⟨Tok.phrase (String.mk buf) :: ts, ?_⟩
              simp [hts]
            · refine Or.inr ?_
              simp [herr]
        · rw [if_neg hq]
          by_cases hl1 : c = '('
          · rw [if_pos hl1]
            rcases ih rest (by simp at hl; omega) with ⟨ts, hts⟩ | herr
            · refine Or.inl ⟨Tok.lparen :: ts, ?_⟩
              simp [hts]
            · refine Or.inr ?_
              simp [herr]
          · rw [if_neg hl1]
            by_cases hr1 : c = ')'
            · rw [if_pos hr1]
              rcases ih rest (by simp at hl; omega) with ⟨ts, hts⟩ | herr
              · refine Or.inl ⟨Tok.rparen :: ts, ?_⟩
                simp [hts]
              · refine Or.inr ?_
                simp [herr]
            · rw [if_neg hr1]
              by_cases hb1 : c = '!'
              · rw [if_pos hb1]
                rcases ih rest (by simp at hl; omega) with ⟨ts, hts⟩ | herr
                · refine Or.inl ⟨Tok.not :: ts, ?_⟩
                  simp [hts]
                · refine Or.inr ?_
                  simp [herr]
              · rw [if_neg hb1]
                rcases htw : takeWord rest with ⟨w, r⟩
                have hle := takeWord_le rest
                rw [htw] at hle
                simp at hle
                rcases ih r (by simp at hl; omega) with ⟨ts, hts⟩ | herr
                · refine Or.inl ⟨classifyWord (c :: w) :: ts, ?_⟩
                  simp [hts]
                · refine Or.inr ?_
                  simp [herr]

theorem malformed_of_ne_outOfFuel (e : PErr) (h : e ≠ .outOfFuel) :
    MalformedReason e := by
  cases e <;> simp [MalformedReason] at h ⊢

/-- Every parse either succeeds with an AST or fails with one of the
enumerated `MalformedQuery` reasons. -/
theorem parseQuery_ok_or_malformed (s : String) :
    (∃ n, parseQuery s = .ok n) ∨
      (∃ e, parseQuery s = .error e ∧ MalformedReason e) := by
  have htk := tokenizeF_ok_or_unterminated (s.data.length + 1) s.data (by omega)
  rcases htk with ⟨ts, hts⟩ | herr
  · have hpq : parseQuery s = parseQueryTokens ts := by
      rw [parseQuery, show tokenizeExpr s = .ok ts from hts]
    rw [hpq]
    unfold parseQueryTokens
    by_cases hemp : ts.isEmpty = true
    · rw [if_pos hemp]
      exact Or.inr ⟨_, rfl, trivial⟩
    · rw [if_neg hemp]
      rcases hp : parseF (parseFuel ts) .orL [] ts with e | ⟨n, r⟩
      · have hne : e ≠ .outOfFuel := by
          intro habs
          subst habs
          exact parseF_no_fuel_error (parseFuel ts) .orL [] ts
            (by simp [parseFuel, lvlNeed]) hp
        exact Or.inr ⟨e, rfl, malformed_of_ne_outOfFuel e hne⟩
      · rcases r with _ | ⟨t, tr⟩
        · exact Or.inl ⟨n, rfl⟩
        · exact Or.inr ⟨_, rfl, trivial⟩
  · have hpq : parseQuery s = .error .unterminatedPhrase := by
      rw [parseQuery, show tokenizeExpr s = .error .unterminatedPhrase from herr]
    rw [hpq]
    exact Or.inr ⟨_, rfl, trivial⟩

/-- Claim C4: parsing fails with `MalformedQuery` exactly in the enumerated
cases — unterminated quoted phrase, empty token stream, trailing tokens or
an operator/closing token where a primary is expected (`Unexpected
token`), exhausted stream at a primary (`Unexpected end of query`), and a
missing closing parenthesis — and in every other case parsing succeeds
with an AST.  The universal disjunct shows every failure carries one of
those reasons and is surfaced (the `Except` value is returned, never
swallowed); the concrete conjuncts exhibit each failure case and a
success. -/
theorem c4_malformed_query_cases :
    (∀ s : String, (∃ n, parseQuery s = .ok n) ∨
      (∃ e, parseQuery s = .error e ∧ MalformedReason e)) ∧
    parseQuery "\"unterminated" = .error .unterminatedPhrase ∧
    parseQuery "" = .error .emptyQuery ∧
    parseQuery "a)" = .error (.unexpectedToken ")") ∧
    parseQuery "AND a" = .error (.unexpectedToken "AND") ∧
    parseQuery "a AND" = .error .unexpectedEnd ∧
    parseQuery "(a" = .error .missingClosingParen ∧
    parseQuery "a" = .ok (.term "a" false) :=
  ⟨parseQuery_ok_or_malformed, rfl, rfl, rfl, rfl, rfl, rfl, rfl⟩

/-! ## Claim C5 — no degenerate And/Or nodes -/

theorem nodeWF_mkAnd (acc : List Node) (hne : acc ≠ [])
    (hwf : ∀ m ∈ acc, NodeWF m) : NodeWF (mkAnd acc) := by
  match acc with
  | [] => exact absurd rfl hne
  | [x] => exact hwf x (by simp)
  | x :: y :: tl =>
    refine NodeWF.andN _ (by simp) hwf

theorem nodeWF_mkOr (acc : List Node) (hne : acc ≠ [])
    (hwf : ∀ m ∈ acc, NodeWF m) : NodeWF (mkOr acc) := by
  match acc with
  | [] => exact absurd rfl hne
  | [x] => exact hwf x (by simp)
  | x :: y :: tl =>
    refine NodeWF.orN _ (by simp) hwf

/-- Every node a successful parse produces satisfies the ≥2-children
invariant, given that the loop accumulators do. -/
theorem parseF_wf : ∀ (f : Nat) (lvl : Lvl) (acc : List Node) (ts : List Tok)
    (n : Node) (r : List Tok), parseF f lvl acc ts = .ok (n, r) →
    (lvl = .andLoop ∨ lvl = .orLoop → acc ≠ [] ∧ ∀ m ∈ acc, NodeWF m) →
    NodeWF n := by
  intro f
  induction f with
  | zero => intro lvl acc ts n r h _; exact absurd h (by simp [parseF])
  | succ f ih =>
    intro lvl acc ts n r h hacc
    cases lvl
    case primary =>
      cases ts with
      | nil => simp [parseF] at h
      | cons t tail =>
        cases t
        case lparen =>
          simp only [parseF] at h
          rcases hin : parseF f .orL [] tail with e | ⟨n1, r1⟩
          · rw [hin] at h; simp at h
          · rw [hin] at h
            rcases r1 with _ | ⟨t2, r2⟩
            · simp at h
            · cases t2 <;> simp at h
              obtain ⟨rfl, rfl⟩ := h
              exact ih .orL [] tail n1 (Tok.rparen :: r2) hin (by simp)
        case phrase s =>
          simp only [parseF, Except.ok.injEq, Prod.mk.injEq] at h
          obtain ⟨rfl, rfl⟩ := h
          exact NodeWF.term s true
        case word s =>
          simp only [parseF, Except.ok.injEq, Prod.mk.injEq] at h
          obtain ⟨rfl, rfl⟩ := h
          exact NodeWF.term s false
        case and => simp [parseF] at h
        case or => simp [parseF] at h
        case not => simp [parseF] at h
        case rparen => simp [parseF] at h
    case notL =>
      by_cases hh : ts.head? = some Tok.not
      · rcases ts with _ | ⟨t, tail⟩
        · simp at hh
        · simp at hh
          subst hh
          simp only [parseF] at h
          rcases hin : parseF f .notL [] tail with e | ⟨n1, r1⟩
          · rw [hin] at h; simp at h
          · rw [hin] at h
            simp at h
            obtain ⟨rfl, rfl⟩ := h
            exact NodeWF.notN n1 (ih .notL [] tail n1 r1 hin (by simp))
      · rw [parseF_notL_step f acc ts hh] at h
        exact ih .primary [] ts n r h (by simp)
    case andL =>
      simp only [parseF] at h
      rcases hin : parseF f .notL [] ts with e | ⟨n1, r1⟩
      · rw [hin] at h; simp at h
      · rw [hin] at h
        have h1 := ih .notL [] ts n1 r1 hin (by simp)
        refine ih .andLoop [n1] r1 n r h (fun _ => ⟨by simp, ?_⟩)
        intro m hm
        simp at hm
        subst hm
        exact h1
    case orL =>
      simp only [parseF] at h
      rcases hin : parseF f .andL [] ts with e | ⟨n1, r1⟩
      · rw [hin] at h; simp at h
      · rw [hin] at h
        have h1 := ih .andL [] ts n1 r1 hin (by simp)
        refine ih .orLoop [n1] r1 n r h (fun _ => ⟨by simp, ?_⟩)
        intro m hm
        simp at hm
        subst hm
        exact h1
    case andLoop =>
      have hacc2 := hacc (Or.inl rfl)
      by_cases hh : ts.head? = some Tok.and
      · rcases ts with _ | ⟨t, tail⟩
        · simp at hh
        · simp at hh
          subst hh
          simp only [parseF] at h
          rcases hin : parseF f .notL [] tail with e | ⟨n1, r1⟩
          · rw [hin] at h; simp at h
          · rw [hin] at h
            have h1 := ih .notL [] tail n1 r1 hin (by simp)
            refine ih .andLoop (acc ++ [n1]) r1 n r h (fun _ => ⟨by simp, ?_⟩)
            intro m hm
            simp at hm
            rcases hm with hm | hm
            · exact hacc2.2 m hm
            · subst hm; exact h1
      · rw [parseF_andLoop_step f acc ts hh] at h
        split at h
        · rcases hin : parseF f .notL [] ts with e | ⟨n1, r1⟩
          · rw [hin] at h; simp at h
          · rw [hin] at h
            have h1 := ih .notL [] ts n1 r1 hin (by simp)
            refine ih .andLoop (acc ++ [n1]) r1 n r h (fun _ => ⟨by simp, ?_⟩)
            intro m hm
            simp at hm
            rcases hm with hm | hm
            · exact hacc2.2 m hm
            · subst hm; exact h1
        · simp at h
          obtain ⟨rfl, rfl⟩ := h
          exact nodeWF_mkAnd acc hacc2.1 hacc2.2
    case orLoop =>
      have hacc2 := hacc (Or.inr rfl)
      by_cases hh : ts.head? = some Tok.or
      · rcases ts with _ | ⟨t, tail⟩
        · simp at hh
        · simp at hh
          subst hh
          simp only [parseF] at h
          rcases hin : parseF f .andL [] tail with e | ⟨n1, r1⟩
          · rw [hin] at h; simp at h
          · rw [hin] at h
            have h1 := ih .andL [] tail n1 r1 hin (by simp)
            refine ih .orLoop (acc ++ [n1]) r1 n r h (fun _ => ⟨by simp, ?_⟩)
            intro m hm
            simp at hm
            rcases hm with hm | hm
            · exact hacc2.2 m hm
            · subst hm; exact h1
      · rw [parseF_orLoop_step f acc ts hh] at h
        simp at h
        obtain ⟨rfl, rfl⟩ := h
        exact nodeWF_mkOr acc hacc2.1 hacc2.2

/-- Claim C5: every `And`/`Or` node in any AST returned by a successful
parse has at least two children (a would-be single-child `And`/`Or`
collapses to its only child during construction), and a single word parses
to a bare `Term` node. -/
theorem c5_no_degenerate_and_or :
    (∀ (s : String) (n : Node), parseQuery s = .ok n → NodeWF n) ∧
    parseQuery "a" = .ok (.term "a" false) := by
  refine ⟨?_, rfl⟩
  intro s n h
  have htk2 := tokenizeF_ok_or_unterminated (s.data.length + 1) s.data (by omega)
  rcases htk2 with ⟨ts, hts⟩ | herr
  · have hpq : parseQuery s = parseQueryTokens ts := by
      rw [parseQuery, show tokenizeExpr s = .ok ts from hts]
    rw [hpq] at h
    unfold parseQueryTokens at h
    by_cases hemp : ts.isEmpty = true
    · rw [if_pos hemp] at h; simp at h
    · rw [if_neg hemp] at h
      rcases hp : parseF (parseFuel ts) .orL [] ts with e | ⟨n1, r⟩
      · rw [hp] at h; simp at h
      · rw [hp] at h
        rcases r with _ | ⟨t, tr⟩
        · simp at h
          subst h
          exact parseF_wf (parseFuel ts) .orL [] ts n1 [] hp (by simp)
        · simp at h
  · have hpq : parseQuery s = .error .unterminatedPhrase := by
      rw [parseQuery, show tokenizeExpr s = .error .unterminatedPhrase from herr]
    rw [hpq] at h
    simp at h

/-- Witness for claim C5: `"a b"` parses to a two-child `And`, which the
invariant accepts. -/
theorem c5_no_degenerate_and_or_witness :
    NodeWF (Node.andN [Node.term "a" false, Node.term "b" false]) :=
  c5_no_degenerate_and_or.1 "a b"
    (Node.andN [Node.term "a" false, Node.term "b" false]) rfl

/-- Claim C7 counterexample: a first variant answering 200 with the
non-empty but whitespace-only body `" "` is *not* returned — the loop
moves on to the second variant (the code tests `response.text.strip()`,
not mere non-emptiness), so the claim's "non-empty body" success
condition does not match the code. -/
theorem c7_counterexample :
    retrieveTexteBrut
      (fun u => if u = "https://gallica.bnf.fr/ark:/1/x.texteBrut"
        then .response 200 " " else .response 200 "ok") "ark:/1/x" = .ok "ok" ∧
    (" " : String) ≠ "" ∧
    Except.ok (" " : String) ≠ (Except.ok "ok" : Except String String) := by
  refine ⟨rfl, by decide, ?_⟩
  intro h
  injection h with h'
  exact absurd h' (by decide)

/-! ## Claim C6 — whitespace normalization lemmas -/

theorem noAdj_cons (a b x : Char) (l : List Char) :
    noAdj a b (x :: l) = ((match l.head? with
      | some y => !(x == a && y == b)
      | none => true) && noAdj a b l) := by
  cases l with
  | nil => simp [noAdj]
  | cons y rest => simp [noAdj]

theorem noAdj_tail (a b x : Char) (l : List Char)
    (h : noAdj a b (x :: l) = true) : noAdj a b l = true := by
  rw [noAdj_cons, Bool.and_eq_true] at h
  exact h.2

theorem noAdj_cons_intro (a b x : Char) (l : List Char)
    (hl : noAdj a b l = true)
    (hx : ∀ y, l.head? = some y → ¬(x = a ∧ y = b)) :
    noAdj a b (x :: l) = true := by
  rw [noAdj_cons]
  cases hh : l.head? with
  | none => simp [hl]
  | some y =>
    by_cases h1 : x = a
    · by_cases h2 : y = b
      · exact absurd ⟨h1, h2⟩ (hx y hh)
      · simp [h1, h2, hl]
    · simp [h1, hl]

theorem noAdj_head (a b x : Char) (l : List Char)
    (h : noAdj a b (x :: l) = true) (hx : x = a) : l.head? ≠ some b := by
  intro hh
  cases l with
  | nil => simp at hh
  | cons y rest =>
    simp at hh
    subst hh
    subst hx
    simp [noAdj] at h

theorem noAdj_of_suffix (a b : Char) (l1 l2 : List Char) (hs : l1 <:+ l2)
    (h : noAdj a b l2 = true) : noAdj a b l1 = true := by
  obtain ⟨pre, rfl⟩ := hs
  induction pre with
  | nil => exact h
  | cons x rest ih => exact ih (noAdj_tail a b x _ h)

theorem noAdj_of_prefix (a b : Char) : ∀ (l1 l2 : List Char), l1 <+: l2 →
    noAdj a b l2 = true → noAdj a b l1 = true := by
  intro l1
  induction l1 with
  | nil => intro l2 _ _; rfl
  | cons x rest ih =>
    intro l2 hp h
    obtain ⟨post, rfl⟩ := hp
    cases rest with
    | nil => rfl
    | cons y tl =>
      have h1 : noAdj a b (y :: tl) = true :=
        ih (y :: tl ++ post) ⟨post, rfl⟩ (noAdj_tail a b x _ h)
      show (!(x == a && y == b) && noAdj a b (y :: tl)) = true
      rw [Bool.and_eq_true]
      refine ⟨?_, h1⟩
      have h2 := h
      rw [show (x :: y :: tl) ++ post = x :: y :: (tl ++ post) from rfl] at h2
      show _
      have h3 : (!(x == a && y == b) && noAdj a b (y :: (tl ++ post))) = true := h2
      rw [Bool.and_eq_true] at h3
      exact h3.1

theorem noAdj_pyStripL (a b : Char) (l : List Char) (h : noAdj a b l = true) :
    noAdj a b (pyStripL l) = true := by
  rw [pyStripL]
  have h1 : noAdj a b (trimLeftWS l) = true :=
    noAdj_of_suffix a b _ l (List.dropWhile_suffix _) h
  exact noAdj_of_prefix a b _ _ (trimRightWS_front _) h1

theorem tsbnl_noAdj : ∀ (l : List Char),
    noAdj ' ' '\n' (trimSpacesBeforeNL l) = true := by
  intro l
  induction l with
  | nil => rfl
  | cons c rest ih =>
    simp only [trimSpacesBeforeNL]
    by_cases hc : c = ' '
    · rw [if_pos hc]
      by_cases hh : (trimSpacesBeforeNL rest).head? = some '\n'
      · rw [if_pos hh]; exact ih
      · rw [if_neg hh]
        refine noAdj_cons_intro _ _ _ _ ih ?_
        intro y hy ⟨_, hyb⟩
        exact hh (by rw [hy, hyb])
    · rw [if_neg hc]
      refine noAdj_cons_intro _ _ _ _ ih ?_
      intro y hy ⟨hxa, _⟩
      exact hc hxa

theorem tsanl_head : ∀ (l : List Char),
    (trimSpacesAfterNLAux true l).head? ≠ some ' ' := by
  intro l
  induction l with
  | nil => simp [trimSpacesAfterNLAux]
  | cons c rest ih =>
    simp only [trimSpacesAfterNLAux]
    by_cases hn : c = '\n'
    · rw [if_pos hn]; simp
    · rw [if_neg hn]
      by_cases hs : c = ' '
      · rw [if_pos hs]
        simpa using ih
      · rw [if_neg hs]
        simp [hs]

theorem tsanl_head_nl : ∀ (l : List Char),
    (trimSpacesAfterNLAux false l).head? = some '\n' → l.head? = some '\n' := by
  intro l h
  cases l with
  | nil => simp [trimSpacesAfterNLAux] at h
  | cons c rest =>
    simp only [trimSpacesAfterNLAux] at h
    by_cases hn : c = '\n'
    · simp [hn]
    · rw [if_neg hn] at h
      by_cases hs : c = ' '
      · rw [if_pos hs] at h
        simp at h
      · rw [if_neg hs] at h
        simp at h
        exact absurd h hn

theorem tsanl_preserves_sp_nl : ∀ (l : List Char) (b : Bool),
    noAdj ' ' '\n' l = true →
    noAdj ' ' '\n' (trimSpacesAfterNLAux b l) = true := by
  intro l
  induction l with
  | nil => intro b _; rfl
  | cons c rest ih =>
    intro b h
    simp only [trimSpacesAfterNLAux]
    by_cases hn : c = '\n'
    · rw [if_pos hn]
      refine noAdj_cons_intro _ _ _ _ (ih true (noAdj_tail _ _ _ _ h)) ?_
      intro y hy ⟨hxa, _⟩
      exact absurd hxa (by decide)
    · rw [if_neg hn]
      by_cases hs : c = ' '
      · rw [if_pos hs]
        by_cases hb : b = true
        · rw [hb, if_pos rfl]
          exact ih true (noAdj_tail _ _ _ _ h)
        · rw [show b = false by revert hb; cases b <;> simp]
          rw [if_neg (by simp)]
          refine noAdj_cons_intro _ _ _ _ (ih false (noAdj_tail _ _ _ _ h)) ?_
          intro y hy ⟨_, hyb⟩
          rw [hyb] at hy
          have := tsanl_head_nl rest hy
          exact noAdj_head ' ' '\n' c rest h hs this
      · rw [if_neg hs]
        refine noAdj_cons_intro _ _ _ _ (ih false (noAdj_tail _ _ _ _ h)) ?_
        intro y hy ⟨hxa, _⟩
        exact hs hxa

theorem tsanl_nl_sp : ∀ (l : List Char) (b : Bool),
    noAdj '\n' ' ' (trimSpacesAfterNLAux b l) = true := by
  intro l
  induction l with
  | nil => intro b; rfl
  | cons c rest ih =>
    intro b
    simp only [trimSpacesAfterNLAux]
    by_cases hn : c = '\n'
    · rw [if_pos hn]
      refine noAdj_cons_intro _ _ _ _ (ih true) ?_
      intro y hy ⟨_, hyb⟩
      rw [hyb] at hy
      exact tsanl_head rest hy
    · rw [if_neg hn]
      by_cases hs : c = ' '
      · rw [if_pos hs]
        by_cases hb : b = true
        · rw [hb, if_pos rfl]
          exact ih true
        · rw [show b = false by revert hb; cases b <;> simp]
          rw [if_neg (by simp)]
          refine noAdj_cons_intro _ _ _ _ (ih false) ?_
          intro y hy ⟨hxa, _⟩
          exact absurd hxa (by decide)
      · rw [if_neg hs]
        refine noAdj_cons_intro _ _ _ _ (ih false) ?_
        intro y hy ⟨hxa, _⟩
        exact hn hxa

theorem csp_head : ∀ (l : List Char),
    (collapseSpacesAux true l).head? ≠ some ' ' := by
  intro l
  induction l with
  | nil => simp [collapseSpacesAux]
  | cons c rest ih =>
    simp only [collapseSpacesAux]
    by_cases hs : c = ' '
    · rw [if_pos hs]
      simpa using ih
    · rw [if_neg hs]
      simp [hs]

theorem csp_head_nl : ∀ (rest : List Char),
    noAdj ' ' '\n' (' ' :: rest) = true →
    (collapseSpacesAux true rest).head? ≠ some '\n' := by
  intro rest
  induction rest with
  | nil => intro _; simp [collapseSpacesAux]
  | cons c2 r2 ih =>
    intro h
    simp only [collapseSpacesAux]
    by_cases hs : c2 = ' '
    · subst hs
      simpa [collapseSpacesAux] using ih (noAdj_tail _ _ _ _ h)
    · rw [if_neg hs]
      intro hy
      simp at hy
      subst hy
      exact (noAdj_head ' ' '\n' ' ' ('\n' :: r2) h rfl) (by simp)
  
theorem csp_head_sp : ∀ (l : List Char),
    (collapseSpacesAux false l).head? = some ' ' → l.head? = some ' ' := by
  intro l h
  cases l with
  | nil => simp [collapseSpacesAux] at h
  | cons c rest =>
    simp only [collapseSpacesAux] at h
    by_cases hs : c = ' '
    · simp [hs]
    · rw [if_neg hs] at h
      simp at h
      exact absurd h hs

theorem csp_no_dbl : ∀ (l : List Char) (b : Bool),
    noAdj ' ' ' ' (collapseSpacesAux b l) = true := by
  intro l
  induction l with
  | nil => intro b; rfl
  | cons c rest ih =>
    intro b
    simp only [collapseSpacesAux]
    by_cases hs : c = ' '
    · rw [if_pos hs]
      by_cases hb : b = true
      · rw [hb, if_pos rfl]
        exact ih true
      · rw [show b = false by revert hb; cases b <;> simp, if_neg (by simp)]
        refine noAdj_cons_intro _ _ _ _ (ih true) ?_
        intro y hy ⟨_, hyb⟩
        rw [hyb] at hy
        exact csp_head rest hy
    · rw [if_neg hs]
      refine noAdj_cons_intro _ _ _ _ (ih false) ?_
      intro y hy ⟨hxa, _⟩
      exact hs hxa

theorem csp_preserves_sp_nl : ∀ (l : List Char) (b : Bool),
    noAdj ' ' '\n' l = true →
    noAdj ' ' '\n' (collapseSpacesAux b l) = true := by
  intro l
  induction l with
  | nil => intro b _; rfl
  | cons c rest ih =>
    intro b h
    simp only [collapseSpacesAux]
    by_cases hs : c = ' '
    · rw [if_pos hs]
      by_cases hb : b = true
      · rw [hb, if_pos rfl]
        exact ih true (noAdj_tail _ _ _ _ h)
      · rw [show b = false by revert hb; cases b <;> simp, if_neg (by simp)]
        refine noAdj_cons_intro _ _ _ _ (ih true (noAdj_tail _ _ _ _ h)) ?_
        intro y hy ⟨_, hyb⟩
        rw [hyb] at hy
        subst hs
        exact csp_head_nl rest h hy
    · rw [if_neg hs]
      refine noAdj_cons_intro _ _ _ _ (ih false (noAdj_tail _ _ _ _ h)) ?_
      intro y hy ⟨hxa, _⟩
      exact hs hxa

theorem csp_preserves_nl_sp : ∀ (l : List Char) (b : Bool),
    noAdj '\n' ' ' l = true →
    noAdj '\n' ' ' (collapseSpacesAux b l) = true := by
  intro l
  induction l with
  | nil => intro b _; rfl
  | cons c rest ih =>
    intro b h
    simp only [collapseSpacesAux]
    by_cases hs : c = ' '
    · rw [if_pos hs]
      by_cases hb : b = true
      · rw [hb, if_pos rfl]
        exact ih true (noAdj_tail _ _ _ _ h)
      · rw [show b = false by revert hb; cases b <;> simp, if_neg (by simp)]
        refine noAdj_cons_intro _ _ _ _ (ih true (noAdj_tail _ _ _ _ h)) ?_
        intro y hy ⟨hxa, _⟩
        exact absurd hxa (by decide)
    · rw [if_neg hs]
      refine noAdj_cons_intro _ _ _ _ (ih false (noAdj_tail _ _ _ _ h)) ?_
      intro y hy ⟨hxa, hyb⟩
      rw [hyb] at hy
      have := csp_head_sp rest hy
      exact noAdj_head '\n' ' ' c rest h hxa this

/-- The last four stages of `_html_to_plain_text` leave no space adjacent
to a newline, no doubled space, and a fully stripped result. -/
theorem htmlFinalStages (x : List Char) :
    noAdj ' ' '\n' (pyStripL (collapseSpacesAux false
      (trimSpacesAfterNLAux false (trimSpacesBeforeNL x)))) = true ∧
    noAdj '\n' ' ' (pyStripL (collapseSpacesAux false
      (trimSpacesAfterNLAux false (trimSpacesBeforeNL x)))) = true ∧
    noAdj ' ' ' ' (pyStripL (collapseSpacesAux false
      (trimSpacesAfterNLAux false (trimSpacesBeforeNL x)))) = true ∧
    pyStripL (pyStripL (collapseSpacesAux false
      (trimSpacesAfterNLAux false (trimSpacesBeforeNL x)))) =
      pyStripL (collapseSpacesAux false
        (trimSpacesAfterNLAux false (trimSpacesBeforeNL x))) := by
  have h10 := tsbnl_noAdj x
  have h11a := tsanl_preserves_sp_nl (trimSpacesBeforeNL x) false h10
  have h11b := tsanl_nl_sp (trimSpacesBeforeNL x) false
  have h12a := csp_preserves_sp_nl _ false h11a
  have h12b := csp_preserves_nl_sp _ false h11b
  have h12c := csp_no_dbl (trimSpacesAfterNLAux false (trimSpacesBeforeNL x)) false
  exact ⟨noAdj_pyStripL _ _ _ h12a, noAdj_pyStripL _ _ _ h12b,
    noAdj_pyStripL _ _ _ h12c, pyStripL_idem _⟩

/-- Claim C6 counterexample: on input `"a\n \n \nb"` the normalizer
produces `"a\n\n\nb"`, which contains a run of three consecutive newlines
— the `\n{3,} → \n\n` collapse runs *before* the space-before-newline
trimming, so space-separated newlines can merge into longer runs
afterwards. -/
theorem c6_counterexample :
    htmlToPlainText "a\n \n \nb" = "a\n\n\nb" ∧
    hasTripleNL (htmlToPlainText "a\n \n \nb").data = true :=
  ⟨rfl, rfl⟩

/-- Claim C6 (amended): for every input HTML string the normalizer's
output has no space adjacent to a newline, no run of two or more spaces,
and is trimmed of leading and trailing whitespace; the claim's remaining
conjunct — no run of three or more newlines — does not hold in general
(see the counterexample), because the newline collapse precedes the
space-trimming steps. -/
theorem c6_whitespace_normalization (html : String) :
    noAdj ' ' '\n' (htmlToPlainText html).data = true ∧
    noAdj '\n' ' ' (htmlToPlainText html).data = true ∧
    noAdj ' ' ' ' (htmlToPlainText html).data = true ∧
    pyStripL (htmlToPlainText html).data = (htmlToPlainText html).data := by
  exact htmlFinalStages _

/-! ## Parsed ASTs are shallow enough for the emitter's fuel -/

theorem DepthLE_mono (n : Node) (k : Nat) (h : DepthLE n k) :
    ∀ m, k ≤ m → DepthLE n m := by
  induction h with
  | term v e k =>
    intro m hm
    obtain ⟨m', rfl⟩ : ∃ m', m = m' + 1 := ⟨m - 1, by omega⟩
    exact DepthLE.term v e m'
  | notN c k hc ih =>
    intro m hm
    obtain ⟨m', rfl⟩ : ∃ m', m = m' + 1 := ⟨m - 1, by omega⟩
    exact DepthLE.notN c m' (ih m' (by omega))
  | andN cs k hcs ih =>
    intro m hm
    obtain ⟨m', rfl⟩ : ∃ m', m = m' + 1 := ⟨m - 1, by omega⟩
    exact DepthLE.andN cs m' (fun c hc => ih c hc m' (by omega))
  | orN cs k hcs ih =>
    intro m hm
    obtain ⟨m', rfl⟩ : ∃ m', m = m' + 1 := ⟨m - 1, by omega⟩
    exact DepthLE.orN cs m' (fun c hc => ih c hc m' (by omega))

theorem depthLE_mkAnd (acc : List Node) (B : Nat)
    (h : ∀ m ∈ acc, DepthLE m B) : DepthLE (mkAnd acc) (B + 1) := by
  match acc with
  | [] => exact DepthLE.andN [] B (by simp)
  | [x] => exact DepthLE_mono x B (h x (by simp)) (B + 1) (by omega)
  | x :: y :: tl => exact DepthLE.andN _ B h

theorem depthLE_mkOr (acc : List Node) (B : Nat)
    (h : ∀ m ∈ acc, DepthLE m B) : DepthLE (mkOr acc) (B + 1) := by
  match acc with
  | [] => exact DepthLE.orN [] B (by simp)
  | [x] => exact DepthLE_mono x B (h x (by simp)) (B + 1) (by omega)
  | x :: y :: tl => exact DepthLE.orN _ B h

/-- The depth of a parsed node is bounded by the accumulator bound and the
fuel. -/
theorem parseF_depth : ∀ (f : Nat) (lvl : Lvl) (acc : List Node) (ts : List Tok)
    (n : Node) (r : List Tok) (B : Nat), parseF f lvl acc ts = .ok (n, r) →
    (∀ m ∈ acc, DepthLE m B) → DepthLE n (max B f + 1) := by
  intro f
  induction f with
  | zero => intro lvl acc ts n r B h _; exact absurd h (by simp [parseF])
  | succ f ih =>
    intro lvl acc ts n r B h hacc
    cases lvl
    case primary =>
      cases ts with
      | nil => simp [parseF] at h
      | cons t tail =>
        cases t
        case lparen =>
          simp only [parseF] at h
          rcases hin : parseF f .orL [] tail with e | ⟨n1, r1⟩
          · rw [hin] at h; simp at h
          · rw [hin] at h
            rcases r1 with _ | ⟨t2, r2⟩
            · simp at h
            · cases t2 <;> simp at h
              obtain ⟨rfl, rfl⟩ := h
              have := ih .orL [] tail n1 (Tok.rparen :: r2) 0 hin (by simp)
              exact DepthLE_mono _ _ this _ (by omega)
        case phrase s =>
          simp only [parseF, Except.ok.injEq, Prod.mk.injEq] at h
          obtain ⟨rfl, rfl⟩ := h
          exact DepthLE.term s true _
        case word s =>
          simp only [parseF, Except.ok.injEq, Prod.mk.injEq] at h
          obtain ⟨rfl, rfl⟩ := h
          exact DepthLE.term s false _
        case and => simp [parseF] at h
        case or => simp [parseF] at h
        case not => simp [parseF] at h
        case rparen => simp [parseF] at h
    case notL =>
      by_cases hh : ts.head? = some Tok.not
      · rcases ts with _ | ⟨t, tail⟩
        · simp at hh
        · simp at hh
          subst hh
          simp only [parseF] at h
          rcases hin : parseF f .notL [] tail with e | ⟨n1, r1⟩
          · rw [hin] at h; simp at h
          · rw [hin] at h
            simp at h
            obtain ⟨rfl, rfl⟩ := h
            have := ih .notL [] tail n1 r1 0 hin (by simp)
            have h2 := DepthLE.notN n1 (max 0 f + 1) this
            exact DepthLE_mono _ _ h2 _ (by omega)
      · rw [parseF_notL_step f acc ts hh] at h
        have := ih .primary [] ts n r 0 h (by simp)
        exact DepthLE_mono _ _ this _ (by omega)
    case andL =>
      simp only [parseF] at h
      rcases hin : parseF f .notL [] ts with e | ⟨n1, r1⟩
      · rw [hin] at h; simp at h
      · rw [hin] at h
        have h1 := ih .notL [] ts n1 r1 0 hin (by simp)
        have h2 := ih .andLoop [n1] r1 n r (max 0 f + 1) h (by
          intro m hm
          simp at hm
          subst hm
          exact h1)
        exact DepthLE_mono _ _ h2 _ (by omega)
    case orL =>
      simp only [parseF] at h
      rcases hin : parseF f .andL [] ts with e | ⟨n1, r1⟩
      · rw [hin] at h; simp at h
      · rw [hin] at h
        have h1 := ih .andL [] ts n1 r1 0 hin (by simp)
        have h2 := ih .orLoop [n1] r1 n r (max 0 f + 1) h (by
          intro m hm
          simp at hm
          subst hm
          exact h1)
        exact DepthLE_mono _ _ h2 _ (by omega)
    case andLoop =>
      by_cases hh : ts.head? = some Tok.and
      · rcases ts with _ | ⟨t, tail⟩
        · simp at hh
        · simp at hh
          subst hh
          simp only [parseF] at h
          rcases hin : parseF f .notL [] tail with e | ⟨n1, r1⟩
          · rw [hin] at h; simp at h
          · rw [hin] at h
            have h1 := ih .notL [] tail n1 r1 0 hin (by simp)
            have h2 := ih .andLoop (acc ++ [n1]) r1 n r (max B (f + 1)) h (by
              intro m hm
              simp at hm
              rcases hm with hm | hm
              · exact DepthLE_mono _ _ (hacc m hm) _ (by omega)
              · subst hm
                exact DepthLE_mono _ _ h1 _ (by omega))
            exact DepthLE_mono _ _ h2 _ (by omega)
      · rw [parseF_andLoop_step f acc ts hh] at h
        split at h
        · rcases hin : parseF f .notL [] ts with e | ⟨n1, r1⟩
          · rw [hin] at h; simp at h
          · rw [hin] at h
            have h1 := ih .notL [] ts n1 r1 0 hin (by simp)
            have h2 := ih .andLoop (acc ++ [n1]) r1 n r (max B (f + 1)) h (by
              intro m hm
              simp at hm
              rcases hm with hm | hm
              · exact DepthLE_mono _ _ (hacc m hm) _ (by omega)
              · subst hm
                exact DepthLE_mono _ _ h1 _ (by omega))
            exact DepthLE_mono _ _ h2 _ (by omega)
        · simp at h
          obtain ⟨rfl, rfl⟩ := h
          exact DepthLE_mono _ _ (depthLE_mkAnd acc B hacc) _ (by omega)
    case orLoop =>
      by_cases hh : ts.head? = some Tok.or
      · rcases ts with _ | ⟨t, tail⟩
        · simp at hh
        · simp at hh
          subst hh
          simp only [parseF] at h
          rcases hin : parseF f .andL [] tail with e | ⟨n1, r1⟩
          · rw [hin] at h; simp at h
          · rw [hin] at h
            have h1 := ih .andL [] tail n1 r1 0 hin (by simp)
            have h2 := ih .orLoop (acc ++ [n1]) r1 n r (max B (f + 1)) h (by
              intro m hm
              simp at hm
              rcases hm with hm | hm
              · exact DepthLE_mono _ _ (hacc m hm) _ (by omega)
              · subst hm
                exact DepthLE_mono _ _ h1 _ (by omega))
            exact DepthLE_mono _ _ h2 _ (by omega)
      · rw [parseF_orLoop_step f acc ts hh] at h
        simp at h
        obtain ⟨rfl, rfl⟩ := h
        exact DepthLE_mono _ _ (depthLE_mkOr acc B hacc) _ (by omega)

/-- `emitF` is fuel-stable above the node's depth: the emitter computes
the same clause for every sufficient fuel, so the specific fuel chosen in
`buildTextQueryClause` is immaterial. -/
theorem emitF_stable (n : Node) (k : Nat) (h : DepthLE n k) :
    ∀ f g, k ≤ f → k ≤ g → emitF f n = emitF g n := by
  induction h with
  | term v e k =>
    intro f g hf hg
    obtain ⟨f', rfl⟩ : ∃ f', f = f' + 1 := ⟨f - 1, by omega⟩
    obtain ⟨g', rfl⟩ : ∃ g', g = g' + 1 := ⟨g - 1, by omega⟩
    rfl
  | notN c k hc ih =>
    intro f g hf hg
    obtain ⟨f', rfl⟩ : ∃ f', f = f' + 1 := ⟨f - 1, by omega⟩
    obtain ⟨g', rfl⟩ : ∃ g', g = g' + 1 := ⟨g - 1, by omega⟩
    show ("not " ++ renderChild PREC_NOT (emitF f' c), PREC_NOT)
      = ("not " ++ renderChild PREC_NOT (emitF g' c), PREC_NOT)
    rw [ih f' g' (by omega) (by omega)]
  | andN cs k hcs ih =>
    intro f g hf hg
    obtain ⟨f', rfl⟩ : ∃ f', f = f' + 1 := ⟨f - 1, by omega⟩
    obtain ⟨g', rfl⟩ : ∃ g', g = g' + 1 := ⟨g - 1, by omega⟩
    show (pyJoin " and " (cs.map (fun c => renderChild PREC_AND (emitF f' c))), PREC_AND)
      = (pyJoin " and " (cs.map (fun c => renderChild PREC_AND (emitF g' c))), PREC_AND)
    rw [List.map_congr_left (fun c hc => by
      rw [ih c hc f' g' (by omega) (by omega)])]
  | orN cs k hcs ih =>
    intro f g hf hg
    obtain ⟨f', rfl⟩ : ∃ f', f = f' + 1 := ⟨f - 1, by omega⟩
    obtain ⟨g', rfl⟩ : ∃ g', g = g' + 1 := ⟨g - 1, by omega⟩
    show (pyJoin " or " (cs.map (fun c => renderChild PREC_OR (emitF f' c))), PREC_OR)
      = (pyJoin " or " (cs.map (fun c => renderChild PREC_OR (emitF g' c))), PREC_OR)
    rw [List.map_congr_left (fun c hc => by
      rw [ih c hc f' g' (by omega) (by omega)])]

/-- Any node the top-level parse produces fits within the emitter fuel
used by `buildTextQueryClause`. -/
theorem parse_result_depth (ts : List Tok) (n : Node) (r : List Tok)
    (h : parseF (parseFuel ts) .orL [] ts = .ok (n, r)) :
    DepthLE n (parseFuel ts + 1) := by
  have := parseF_depth (parseFuel ts) .orL [] ts n r 0 h (by simp)
  exact DepthLE_mono _ _ this _ (by omega)
